import Mathlib

/-!
Verification development for the cslox bytecode compiler and VM
(`src/clox/src/*`).  The C sources are shallowly embedded: machine
integers become `Nat` with explicit `% 2^w` where overflow matters,
`double` values are represented by their 64-bit IEEE-754 bit pattern,
heap pointers become `Nat` identifiers resolved through an explicit
store, and fallible operations return `Option`/tagged results.
-/

namespace Clox

/-! ## Values (value.h / value.c)

`value_t` is a tagged union over nil, bool, number (C `double`) and
object reference.  A number is carried as its 64-bit bit pattern; an
object reference is carried as an abstract address (`Nat`). -/

inductive Value where
  | nil
  | bool (b : Bool)
  | number (bits : Nat)
  | object (ref : Nat)
deriving DecidableEq, Repr

def Value.isNil : Value → Bool
  | .nil => true
  | _ => false

/-! ### IEEE-754 binary64 semantics needed by the embedding

The C code compares numbers with `==` on `double` and hashes them by
hashing their 8 bytes.  For bit patterns, `==` is: both operands are
not NaN, and either the patterns coincide or both denote a zero
(+0.0 == -0.0).  Every non-NaN, non-zero binary64 value has a unique
bit pattern, so this captures `==` exactly. -/

def isNanBits (bits : Nat) : Bool :=
  decide ((bits / 2 ^ 52) % 2 ^ 11 = 2047) && decide (bits % 2 ^ 52 ≠ 0)

def isZeroBits (bits : Nat) : Bool :=
  decide (bits % 2 ^ 63 = 0)

def doubleEq (a b : Nat) : Bool :=
  !isNanBits a && !isNanBits b && (decide (a = b) || (isZeroBits a && isZeroBits b))

/-! ### Hashing (hash.c) -/

/-- One step of FNV-1a with `uint32_t` arithmetic. -/
def fnvStep (h b : Nat) : Nat := ((h ^^^ b) * 16777619) % 2 ^ 32

/-- `hash_bytes`: FNV-1a over a byte sequence. -/
def hashBytes (bytes : List Nat) : Nat := bytes.foldl fnvStep 2166136261

/-- The 8 bytes of a 64-bit pattern in little-endian order, as
`memcpy`/byte-wise access sees them on the reference platform. -/
def bytesOfUInt64 (bits : Nat) : List Nat :=
  [bits % 256, bits / 2 ^ 8 % 256, bits / 2 ^ 16 % 256, bits / 2 ^ 24 % 256,
   bits / 2 ^ 32 % 256, bits / 2 ^ 40 % 256, bits / 2 ^ 48 % 256, bits / 2 ^ 56 % 256]

/-- `hash_double`: FNV-1a over the 8 bytes of the double. -/
def hashDouble (bits : Nat) : Nat := hashBytes (bytesOfUInt64 bits)

/-- `hash_string`: FNV-1a over the character bytes. -/
def hashString (chars : List Nat) : Nat := hashBytes chars

/-- `hash_nil`. -/
def hashNil : Nat := 42

/-- `hash_bool`. -/
def hashBool (b : Bool) : Nat := if b then 1 else 0

/-! ## Object heap (object.h / object.c)

Objects live behind references.  The store maps a reference to the
data `hash_object` and the VM dereference; a string object carries its
cached content hash and its character bytes, a function its arity,
upvalue count and (dereferenced) name hash, a closure the reference of
its function, a native the address of its host function and its arity. -/

inductive ObjectData where
  | string (hash : Nat) (chars : List Nat)
  | native (fnAddr : Nat) (arity : Nat)
  | function (nameHash : Nat) (arity : Nat) (upvalueCount : Nat)
  | closure (functionRef : Nat)
  | upvalue
deriving DecidableEq, Repr

/-- The heap: what each object reference points at. -/
def Store : Type := Nat → ObjectData

/-- `hash_object` (object.c): strings use the cached content hash,
natives the (truncated) host-function address, functions and closures
the hash of the function name, upvalues the constant 123. -/
def hashObject (σ : Store) (ref : Nat) : Nat :=
  match σ ref with
  | .string h _ => h
  | .native fnAddr _ => fnAddr % 2 ^ 32
  | .function nameHash _ _ => nameHash
  | .closure functionRef =>
    match σ functionRef with
    | .function nameHash _ _ => nameHash
    | _ => 0
  | .upvalue => 123

/-- `hash_value` (value.c). -/
def hashValue (σ : Store) : Value → Nat
  | .nil => hashNil
  | .bool b => hashBool b
  | .number bits => hashDouble bits
  | .object ref => hashObject σ ref

/-- `objects_equal` (object.c): reference identity. -/
def objectsEqual (a b : Nat) : Bool := decide (a = b)

/-- `values_equal` (value.c): same tag and equal payload; numbers use
IEEE `==`, objects reference identity. -/
def valuesEqual : Value → Value → Bool
  | .nil, .nil => true
  | .bool a, .bool b => a == b
  | .number a, .number b => doubleEq a b
  | .object a, .object b => objectsEqual a b
  | _, _ => false

/-- `value_is_falsey` (value.c). -/
def valueIsFalsey : Value → Bool
  | .nil => true
  | .bool b => !b
  | _ => false

/-- `value_is_truey` (value.c). -/
def valueIsTruey (v : Value) : Bool := !valueIsFalsey v

/-- A store with nothing interesting in it, used for concrete inputs. -/
def emptyStore : Store := fun _ => ObjectData.upvalue

/-! ## Chunks (chunk.h / chunk.c) -/

structure LineInfo where
  line : Nat
  bytes : Nat
deriving DecidableEq, Repr

structure Chunk where
  code : List Nat
  lineInfos : List LineInfo
  values : List Value
deriving DecidableEq, Repr

/-- `chunk_init`. -/
def chunkInit : Chunk := ⟨[], [], []⟩

/-- `chunk_write8`: append the byte; extend the top line-info run if it
is for the same line, otherwise start a new run of length 1. -/
def chunkWrite8 (c : Chunk) (data : Nat) (line : Nat) : Chunk :=
  let code := c.code ++ [data % 256]
  match c.lineInfos.getLast? with
  | some li =>
    if li.line = line then
      { c with code := code, lineInfos := c.lineInfos.dropLast ++ [⟨li.line, li.bytes + 1⟩] }
    else
      { c with code := code, lineInfos := c.lineInfos ++ [⟨line, 1⟩] }
  | none => { c with code := code, lineInfos := c.lineInfos ++ [⟨line, 1⟩] }

/-- `chunk_get_line_for_offset`: linear scan of the run-length table. -/
def getLineAux : List LineInfo → Nat → Nat → Option Nat
  | [], _, _ => none
  | li :: rest, offset, currentOffset =>
    if offset < currentOffset + li.bytes then some li.line
    else getLineAux rest offset (currentOffset + li.bytes)

def chunkGetLineForOffset (c : Chunk) (offset : Nat) : Option Nat :=
  getLineAux c.lineInfos offset 0

/-- `chunk_add_value`: reuse an existing structurally equal constant,
else append. Returns the index. -/
def chunkAddValue (c : Chunk) (v : Value) : Chunk × Nat :=
  match c.values.findIdx? (fun existing => valuesEqual v existing) with
  | some i => (c, i)
  | none => ({ c with values := c.values ++ [v] }, c.values.length)

/-- Sum of the run lengths (`bytes` fields) of the line-info table. -/
def sumLineBytes (l : List LineInfo) : Nat := (l.map (·.bytes)).sum

/-- The line numbers of the line-info table are non-decreasing. -/
def linesSorted (l : List LineInfo) : Prop :=
  l.Chain' (fun a b => a.line ≤ b.line)

/-! ## Jump emission and patching (compiler.c) and the VM jump
instructions (vm.c) -/

def int16Min : Int := -32768
def int16Max : Int := 32767

/-- The two's-complement little-endian byte pair that `memcpy` of an
in-range `int16_t` stores. -/
def int16Bytes (d : Int) : Nat × Nat :=
  let u : Nat := (d + 2 ^ 16).toNat % 2 ^ 16
  (u % 2 ^ 8, u / 2 ^ 8 % 2 ^ 8)

/-- `emit_jump_to`: emit opcode plus a displacement to a known target
address.  Returns the chunk and whether "Can't jump this far." was
reported (in which case nothing is emitted). -/
def emitJumpTo (c : Chunk) (line : Nat) (opcode : Nat) (toAddr : Nat) : Chunk × Bool :=
  let fromAddr := c.code.length
  let diff : Int := (toAddr : Int) - (fromAddr : Int) - 3
  if diff < int16Min ∨ diff > int16Max then (c, true)
  else
    let c1 := chunkWrite8 (chunkWrite8 (chunkWrite8 c opcode line) 0 line) 0 line
    let bytes := int16Bytes diff
    ({ c1 with code := (c1.code.set (fromAddr + 1) bytes.1).set (fromAddr + 2) bytes.2 },
     false)

/-- `emit_jump_from`: emit opcode plus a zero displacement to be
patched later; returns the address of the jump instruction. -/
def emitJumpFrom (c : Chunk) (line : Nat) (opcode : Nat) : Chunk × Nat :=
  (chunkWrite8 (chunkWrite8 (chunkWrite8 c opcode line) 0 line) 0 line, c.code.length)

/-- `patch_jump_from`: store the displacement from a previously emitted
jump instruction to the current end of code.  Returns the chunk and
whether "Can't jump this far." was reported. -/
def patchJumpFrom (c : Chunk) (fromAddr : Nat) : Chunk × Bool :=
  let toAddr := c.code.length
  let diff : Int := (toAddr : Int) - (fromAddr : Int) - 3
  if diff < int16Min ∨ diff > int16Max then (c, true)
  else
    let bytes := int16Bytes diff
    ({ c with code := (c.code.set (fromAddr + 1) bytes.1).set (fromAddr + 2) bytes.2 },
     false)

/-- Reassemble a signed 16-bit little-endian operand, as the VM's
`READ_INT16` (a `memcpy` into an `int16_t`) does. -/
def decodeInt16 (lo hi : Nat) : Int :=
  let u : Nat := lo % 2 ^ 8 + 2 ^ 8 * (hi % 2 ^ 8)
  if u < 2 ^ 15 then (u : Int) else (u : Int) - 2 ^ 16

/-- `READ_INT16()` at instruction pointer `ip` (which points at the
first operand byte): the decoded offset and the advanced `ip`. -/
def readInt16 (code : List Nat) (ip : Nat) : Int × Nat :=
  (decodeInt16 (code.getD ip 0) (code.getD (ip + 1) 0), ip + 2)

/-- `OP_JUMP` in vm.c's dispatch loop: entering the case, `ip` points
just after the opcode byte; `READ_INT16` advances it past the operand
and the offset is added. -/
def execJump (code : List Nat) (ip : Nat) : Int :=
  let r := readInt16 code ip
  (r.2 : Int) + r.1

/-- `OP_JUMP_IF_TRUE`: conditional variant, tested value stays on the
stack. -/
def execJumpIfTrue (code : List Nat) (ip : Nat) (top : Value) : Int :=
  let r := readInt16 code ip
  if valueIsTruey top then (r.2 : Int) + r.1 else (r.2 : Int)

/-- `OP_JUMP_IF_FALSE`. -/
def execJumpIfFalse (code : List Nat) (ip : Nat) (top : Value) : Int :=
  let r := readInt16 code ip
  if valueIsFalsey top then (r.2 : Int) + r.1 else (r.2 : Int)

/-! ## The open-upvalue list (vm.c)

`root.open_upvalues` is a singly linked list of open upvalue objects;
each node is identified here by its `target` stack-slot address
(pointer comparison on the reference platform is numeric comparison of
addresses).  `capture_upvalue` and `close_upvalue` are the only
mutators of the list. -/

/-- `capture_upvalue`: skip nodes with larger target, reuse an equal
one, else link a fresh upvalue in front of the first smaller node. -/
def captureUpvalue : List Nat → Nat → List Nat
  | [], target => [target]
  | current :: rest, target =>
    if current > target then current :: captureUpvalue rest target
    else if current = target then current :: rest
    else target :: current :: rest

/-- `close_upvalue`: pop every open upvalue whose target is at or above
the threshold address. -/
def closeUpvalue (l : List Nat) (target : Nat) : List Nat :=
  l.dropWhile (fun t => target ≤ t)

inductive UpvalueOp where
  | capture (target : Nat)
  | close (target : Nat)

/-- The open-upvalue list after a sequence of capture/close operations;
`object_root_init` starts it at NULL. -/
def applyUpvalueOps (l : List Nat) (ops : List UpvalueOp) : List Nat :=
  ops.foldl
    (fun l op =>
      match op with
      | .capture t => captureUpvalue l t
      | .close t => closeUpvalue l t) l

/-! ## Program entry point (main.c) -/

inductive RunResult where
  | RUN_OK
  | RUN_COMPILE_ERROR
  | RUN_RUNTIME_ERROR
deriving DecidableEq, Repr

/-- main.c `interpret`, parametrized by the result `vm_run_source`
produces for the given source: the "Result:" line printed to stdout,
and the returned exit status. -/
def interpret (result : RunResult) : String × Int :=
  let resultLine :=
    match result with
    | .RUN_OK => "Result: OK\n"
    | .RUN_COMPILE_ERROR => "Result: Compile error\n"
    | .RUN_RUNTIME_ERROR => "Result: Runtime error\n"
  (resultLine, 0)

/-- main.c `run_file` (for a readable file): interpret the contents and
return 0. -/
def runFile (result : RunResult) : Int :=
  let _ := (interpret result).1
  0

/-- main.c `main`: no arguments → REPL, one argument → run the file,
otherwise usage message and -1. `result` is the interpretation result
of the given file. -/
def mainExitCode (argc : Nat) (result : RunResult) : Int :=
  if argc = 1 then 0
  else if argc = 2 then runFile result
  else -1

/-! ## VM limits and the call protocol (vm.c) -/

def VM_FRAMES_MAX : Nat := 256

def UINT8_MAX : Nat := 255

/-- `#define VM_STACK_MAX (VM_FRAMES_MAX * UINT8_MAX)` -/
def VM_STACK_MAX : Nat := VM_FRAMES_MAX * UINT8_MAX

def SIZE_MAX : Nat := 2 ^ 64 - 1

/-- `vm_stack_push` on a stack with `sp` slots in use: fails (assert)
when the stack is full, else one more slot is used. -/
def vmStackPush (sp : Nat) : Option Nat :=
  if sp = VM_STACK_MAX then none else some (sp + 1)

inductive CallOutcome where
  | framePushed (frameCount : Nat) (basePointer : Nat)
  | nativeCalled
  | error (msg : String)
deriving DecidableEq, Repr

/-- vm.c `call`: dispatch on the callee.  A closure checks arity and
the frame limit and pushes a frame whose base pointer addresses the
callee slot; a native checks arity (SIZE_MAX means variadic) and
pushes no frame; anything else is a runtime error. -/
def call (σ : Store) (frameCount : Nat) (sp : Nat) (callee : Value) (argCount : Nat) :
    CallOutcome :=
  match callee with
  | .object r =>
    match σ r with
    | .closure functionRef =>
      match σ functionRef with
      | .function _ arity _ =>
        if arity ≠ argCount then .error "Expected arguments mismatch."
        else if VM_FRAMES_MAX ≤ frameCount then .error "Call stack overflow."
        else .framePushed (frameCount + 1) (sp - argCount - 1)
      | _ => .error "invalid closure"
    | .native _ arity =>
      if arity ≠ SIZE_MAX ∧ arity ≠ argCount then .error "Native arity mismatch."
      else .nativeCalled
    | _ => .error "Can only call functions and classes."
  | _ => .error "Can only call functions and classes."

/-! ## Compile-error reporting (compiler.c `error_at_token`) -/

inductive TokenType where
  | TOKEN_LEFT_PAREN | TOKEN_RIGHT_PAREN | TOKEN_LEFT_BRACE | TOKEN_RIGHT_BRACE
  | TOKEN_COMMA | TOKEN_DOT | TOKEN_MINUS | TOKEN_PLUS
  | TOKEN_SEMICOLON | TOKEN_SLASH | TOKEN_STAR
  | TOKEN_BANG | TOKEN_BANG_EQUAL | TOKEN_EQUAL | TOKEN_EQUAL_EQUAL
  | TOKEN_GREATER | TOKEN_GREATER_EQUAL | TOKEN_LESS | TOKEN_LESS_EQUAL
  | TOKEN_IDENTIFIER | TOKEN_STRING | TOKEN_NUMBER
  | TOKEN_AND | TOKEN_BREAK | TOKEN_CLASS | TOKEN_CONTINUE | TOKEN_ELSE
  | TOKEN_FALSE | TOKEN_FOR | TOKEN_FUN | TOKEN_IF | TOKEN_NIL | TOKEN_OR
  | TOKEN_PRINT | TOKEN_RETURN | TOKEN_SUPER | TOKEN_THIS
  | TOKEN_TRUE | TOKEN_VAR | TOKEN_WHILE
  | TOKEN_QUESTION | TOKEN_COLON
  | TOKEN_CONST | TOKEN_SWITCH | TOKEN_CASE | TOKEN_DEFAULT
  | TOKEN_ERROR | TOKEN_EOF | TOKEN_NONE
deriving DecidableEq, Repr

structure Token where
  type : TokenType
  lexeme : String
  line : Nat
deriving DecidableEq, Repr

structure ParserErrorState where
  hadError : Bool
  panicMode : Bool
deriving DecidableEq, Repr

/-- `error_at_token`: in panic mode nothing is reported and the state
is untouched; otherwise the report is written to stderr and both flags
are set. -/
def errorAtToken (st : ParserErrorState) (tok : Token) (msg : String) :
    String × ParserErrorState :=
  if st.panicMode then ("", st)
  else
    ("[" ++ toString tok.line ++ "] Error" ++
       (if tok.type = TokenType.TOKEN_EOF then " at end"
        else " at '" ++ tok.lexeme ++ "'") ++
       ": " ++ msg ++ "\n",
     ⟨true, true⟩)

/-- The report shape asserted by the specification ("[line N] Error
..."), for comparison. -/
def specErrorReport (tok : Token) (msg : String) : String :=
  "[line " ++ toString tok.line ++ "] Error" ++
    (if tok.type = TokenType.TOKEN_EOF then " at end"
     else " at '" ++ tok.lexeme ++ "'") ++
    ": " ++ msg ++ "\n"

/-! ## The hash table (table.h / table.c)

Open addressing with linear probing over an array of
`{key, value}` buckets.  `key = NIL, value = NIL` marks an empty
bucket, `key = NIL, value = true` a tombstone. -/

structure Entry where
  key : Value
  value : Value
deriving DecidableEq, Repr

def Entry.empty : Entry := ⟨.nil, .nil⟩

/-- Bucket is genuinely empty (not a tombstone). -/
def Entry.isEmptyBucket (e : Entry) : Bool := e.key.isNil && e.value.isNil

structure Table where
  capacity : Nat
  count : Nat
  entries : List Entry
deriving DecidableEq, Repr

/-- `table_init`. -/
def tableInit : Table := ⟨0, 0, []⟩

/-- memory.h `GROW_CAPACITY`. -/
def GROW_CAPACITY (capacity : Nat) : Nat := if capacity < 8 then 8 else capacity * 2

/-- The probing loop shared by `find_entry` and `find_entry_by_string`
(the two C functions differ only in their hash and their match test on
an occupied bucket): starting at `idx`, skip tombstones remembering
the first one, stop at an empty bucket (yielding the remembered
tombstone if any, else that bucket) or at an occupied bucket
satisfying `isMatch`.  The C loop is unbounded; `fuel` bounds the walk
here, and under the table invariants an empty bucket is always reached
within `capacity` steps, so the fuel never runs out. -/
def findAux (entries : List Entry) (cap : Nat) (isMatch : Entry → Bool) :
    Nat → Nat → Option Nat → Option Nat
  | _, 0, _ => none
  | idx, fuel + 1, tombstone =>
    let e := entries.getD idx Entry.empty
    if e.key.isNil then
      if e.value.isNil then
        some (tombstone.getD idx)
      else
        findAux entries cap isMatch ((idx + 1) % cap) fuel (some (tombstone.getD idx))
    else if isMatch e then some idx
    else findAux entries cap isMatch ((idx + 1) % cap) fuel tombstone

/-- `find_entry`: probe for a `values_equal` key from the key's hash. -/
def findEntry (σ : Store) (t : Table) (key : Value) : Option Nat :=
  findAux t.entries t.capacity (fun e => valuesEqual e.key key)
    (hashValue σ key % t.capacity) t.capacity none

/-- The occupied-bucket test of `find_entry_by_string`: a string-object
key whose cached hash, length and bytes all match the probe content. -/
def stringContentMatch (σ : Store) (chars : List Nat) (e : Entry) : Bool :=
  match e.key with
  | .object r =>
    match σ r with
    | .string h cs => h == hashString chars && cs.length == chars.length && cs == chars
    | _ => false
  | _ => false

/-- `find_entry_by_string`: probe for string content from the content
hash. -/
def findEntryByString (σ : Store) (t : Table) (chars : List Nat) : Option Nat :=
  findAux t.entries t.capacity (stringContentMatch σ chars)
    (hashString chars % t.capacity) t.capacity none

/-- `table_get`. -/
def tableGet (σ : Store) (t : Table) (key : Value) : Option Value :=
  if key.isNil then none
  else if t.count = 0 then none
  else
    match findEntry σ t key with
    | none => none
    | some i =>
      let e := t.entries.getD i Entry.empty
      if e.key.isNil then none else some e.value

/-- `table_get_by_string`: on success returns the key object's
reference and the stored value. -/
def tableGetByString (σ : Store) (t : Table) (chars : List Nat) : Option (Nat × Value) :=
  if t.count = 0 then none
  else
    match findEntryByString σ t chars with
    | none => none
    | some i =>
      let e := t.entries.getD i Entry.empty
      if e.key.isNil then none
      else
        match e.key with
        | .object r => some (r, e.value)
        | _ => none

/-- The re-insertion step of `adjust_capacity`'s rebuild loop. -/
def insertRebuild (σ : Store) (entries : List Entry) (cap : Nat) (src : Entry) :
    List Entry :=
  match findAux entries cap (fun e => valuesEqual e.key src.key)
      (hashValue σ src.key % cap) cap none with
  | some i => entries.set i src
  | none => entries

/-- `adjust_capacity`: fresh empty bucket array, re-insert every
occupied bucket, count the re-inserted entries (tombstones are left
behind). -/
def adjustCapacity (σ : Store) (t : Table) (newCapacity : Nat) : Table :=
  let fresh := List.replicate newCapacity Entry.empty
  let rebuilt := t.entries.foldl
    (fun acc src => if src.key.isNil then acc else insertRebuild σ acc newCapacity src)
    fresh
  { capacity := newCapacity,
    count := t.entries.countP (fun src => !src.key.isNil),
    entries := rebuilt }

/-- `table_set`: grow when the load factor would exceed 0.75 (the C
comparison `count + 1 > capacity * 0.75` is exact for these dyadic
values, hence `4 * (count + 1) > 3 * capacity`), then write the found
bucket.  Returns whether the key was new. -/
def tableSet (σ : Store) (t : Table) (key value : Value) : Table × Bool :=
  if key.isNil then (t, false)
  else
    let t1 :=
      if 3 * t.capacity < 4 * (t.count + 1) then
        adjustCapacity σ t (GROW_CAPACITY t.capacity)
      else t
    match findEntry σ t1 key with
    | none => (t1, false)
    | some i =>
      let e := t1.entries.getD i Entry.empty
      let isNew := e.key.isNil
      let isTombstone := e.key.isNil && e.value == Value.bool true
      ({ t1 with
          count := if isNew && !isTombstone then t1.count + 1 else t1.count,
          entries := t1.entries.set i ⟨key, value⟩ },
       isNew)

/-- `table_delete`: tombstone the found bucket. -/
def tableDelete (σ : Store) (t : Table) (key : Value) : Table × Bool :=
  if key.isNil then (t, false)
  else if t.count = 0 then (t, false)
  else
    match findEntry σ t key with
    | none => (t, false)
    | some i =>
      let e := t.entries.getD i Entry.empty
      if e.key.isNil then (t, false)
      else ({ t with entries := t.entries.set i ⟨.nil, .bool true⟩ }, true)

/-! ## String interning (object.c `create_string_object`) -/

def storeUpdate (σ : Store) (r : Nat) (d : ObjectData) : Store :=
  fun i => if i = r then d else σ i

/-- The object root as far as string interning is concerned: the heap,
a fresh-address supply and the intern table `root->strings`. -/
structure Root where
  store : Store
  nextRef : Nat
  strings : Table

/-- `create_string_object`: reuse an interned string with the same
content; otherwise allocate a new string object carrying the content
hash and register it in the intern table (with value nil). -/
def createStringObject (root : Root) (chars : List Nat) : Root × Nat :=
  match tableGetByString root.store root.strings chars with
  | some (existingRef, _) => (root, existingRef)
  | none =>
    let ref := root.nextRef
    let store := storeUpdate root.store ref (.string (hashString chars) chars)
    let strings := (tableSet store root.strings (.object ref) .nil).1
    ({ store := store, nextRef := ref + 1, strings := strings }, ref)

/-! ## Global-variable instructions (vm.c) -/

inductive GlobalOpResult where
  | ok (globals : Table) (stack : List Value)
  | undefinedVariable (globals : Table)
deriving DecidableEq, Repr

/-- `OP_DEFINE_GLOBAL`: pop the value, insert unconditionally
(redefinition permitted). -/
def execDefineGlobal (σ : Store) (globals : Table) (stack : List Value) (name : Value) :
    Table × List Value :=
  match stack with
  | v :: rest => ((tableSet σ globals name v).1, rest)
  | [] => ((tableSet σ globals name .nil).1, [])

/-- `OP_GET_GLOBAL`: push the value; absence is the "Undefined
variable" runtime error (`none`). -/
def execGetGlobal (σ : Store) (globals : Table) (stack : List Value) (name : Value) :
    Option (List Value) :=
  match tableGet σ globals name with
  | some v => some (v :: stack)
  | none => none

/-- `OP_SET_GLOBAL`: peek the value (assignment is an expression, the
value stays on the stack) and insert; if the insert reports a new key
the binding did not exist, so it is deleted again and "Undefined
variable" is raised. -/
def execSetGlobal (σ : Store) (globals : Table) (stack : List Value) (name : Value) :
    GlobalOpResult :=
  let value := stack.headD .nil
  let r := tableSet σ globals name value
  if r.2 then .undefinedVariable (tableDelete σ r.1 name).1
  else .ok r.1 stack

/-! ## Proof-side notions for the hash table

The buckets visited by the probing loop, the representation invariant
of a table, and what it means for a matching entry to be present,
reachable and unique. -/

/-- The bucket at index `i` (out-of-range reads yield the empty
bucket; the C code never reads out of range). -/
def bucketAt (entries : List Entry) (i : Nat) : Entry := entries.getD i Entry.empty

/-- Bucket `q` holds a live entry (key not NIL). -/
def activeAt (entries : List Entry) (q : Nat) : Prop := (bucketAt entries q).key.isNil = false

/-- Number of buckets that are occupied or tombstoned. -/
def nonEmptyCount (entries : List Entry) : Nat := entries.countP (fun e => !e.isEmptyBucket)

/-- Number of occupied buckets. -/
def activeCount (entries : List Entry) : Nat := entries.countP (fun e => !e.key.isNil)

/-- Representation invariant of a table: the bucket array has
`capacity` buckets, `count` bounds the occupied-or-tombstoned buckets
(the C comment: count = active entries + tombstones), and the load
factor stays at or below 3/4, so a positive-capacity table always has
an empty bucket and probing terminates. -/
structure TableInv (t : Table) : Prop where
  len : t.entries.length = t.capacity
  ne_le : nonEmptyCount t.entries ≤ t.count
  load : 4 * t.count ≤ 3 * t.capacity

/-- The bucket index visited at probe step `j` when probing starts at
hash `hstart`. -/
def probeAt (hstart cap j : Nat) : Nat := (hstart % cap + j) % cap

/-- Bucket `p` lies on the probe path from `hstart` with no empty
bucket before it, so the probing loop cannot stop early. -/
def ReachableAt (entries : List Entry) (cap hstart p : Nat) : Prop :=
  ∃ j, j < cap ∧ p = probeAt hstart cap j ∧
    ∀ i, i < j → (bucketAt entries (probeAt hstart cap i)).isEmptyBucket = false

/-- A bucket satisfying the match predicate `M` is present at `p`,
reachable from `hstart`, and is the only `M`-matching live bucket. -/
def MBound (entries : List Entry) (cap : Nat) (M : Entry → Bool) (hstart p : Nat) : Prop :=
  p < cap ∧ (bucketAt entries p).key.isNil = false ∧ M (bucketAt entries p) = true ∧
  ReachableAt entries cap hstart p ∧
  ∀ q, q < cap → q ≠ p → activeAt entries q → M (bucketAt entries q) = false

/-- Key `k` is bound to value `v`: the bucket `⟨k, v⟩` is present,
reachable from `k`'s hash, and no other live bucket has a
`values_equal` key. -/
def KeyBound (σ : Store) (t : Table) (k v : Value) : Prop :=
  ∃ p, MBound t.entries t.capacity (fun e => valuesEqual e.key k) (hashValue σ k) p ∧
    bucketAt t.entries p = ⟨k, v⟩

/-- No live bucket has a key `values_equal` to `k`. -/
def KeyFree (t : Table) (k : Value) : Prop :=
  ∀ q, q < t.capacity → activeAt t.entries q →
    valuesEqual (bucketAt t.entries q).key k = false

/-- A sequence of `table_set` operations (`table_get` does not modify
the table, so a set/get sequence reduces to its sets). -/
def applySets (σ : Store) (t : Table) (ops : List (Value × Value)) : Table :=
  ops.foldl (fun t kv => (tableSet σ t kv.1 kv.2).1) t

/-- A sequence of `create_string_object` calls. -/
def applyCreates (root : Root) (cs : List (List Nat)) : Root :=
  cs.foldl (fun r chars => (createStringObject r chars).1) root

/-- Invariant of the intern table `root->strings`: a well-formed table
whose live buckets each hold a string object allocated from this root
(reference below the allocation counter, store holding its content and
content hash) that is present, reachable from its content hash, and
unique for its content. -/
def InternInv (root : Root) : Prop :=
  TableInv root.strings ∧
  ∀ q, q < root.strings.capacity → activeAt root.strings.entries q →
    ∃ r cs, (bucketAt root.strings.entries q).key = .object r ∧ r < root.nextRef ∧
      root.store r = .string (hashString cs) cs ∧
      MBound root.strings.entries root.strings.capacity
        (stringContentMatch root.store cs) (hashString cs) q

/-- Content `chars` is interned as the string object `ref`. -/
def HasIntern (root : Root) (chars : List Nat) (ref : Nat) : Prop :=
  ∃ q, q < root.strings.capacity ∧
    (bucketAt root.strings.entries q).key = .object ref ∧
    root.store ref = .string (hashString chars) chars

/-! ## Proof-side decomposition of `table_set`

`table_set` is literally the growth step followed by the write-back
step; `tableSet_eq` below proves the decomposition by `rfl`. -/

/-- The growth step of `table_set`. -/
def growIfNeeded (σ : Store) (t : Table) : Table :=
  if 3 * t.capacity < 4 * (t.count + 1) then
    adjustCapacity σ t (GROW_CAPACITY t.capacity)
  else t

/-- The find-and-write step of `table_set`. -/
def writeBack (σ : Store) (t1 : Table) (key value : Value) : Table × Bool :=
  match findEntry σ t1 key with
  | none => (t1, false)
  | some i =>
    let e := t1.entries.getD i Entry.empty
    let isNew := e.key.isNil
    let isTombstone := e.key.isNil && e.value == Value.bool true
    ({ t1 with
        count := if isNew && !isTombstone then t1.count + 1 else t1.count,
        entries := t1.entries.set i ⟨key, value⟩ },
     isNew)

/-!
# Lemmas
-/

/-! ## `values_equal` is symmetric and transitive -/

theorem doubleEq_symm (a b : Nat) : doubleEq a b = doubleEq b a := by
  simp only [doubleEq]
  cases isNanBits a <;> cases isNanBits b <;> cases isZeroBits a <;> cases isZeroBits b <;>
    by_cases h : a = b <;> simp_all [eq_comm]

theorem valuesEqual_symm (a b : Value) : valuesEqual a b = valuesEqual b a := by
  cases a <;> cases b <;> simp [valuesEqual, objectsEqual, doubleEq_symm, eq_comm, Bool.beq_comm]

theorem doubleEq_trans {a b c : Nat} (h1 : doubleEq a b = true) (h2 : doubleEq b c = true) :
    doubleEq a c = true := by
  simp only [doubleEq, Bool.and_eq_true, Bool.or_eq_true, decide_eq_true_eq,
    Bool.not_eq_true'] at h1 h2 ⊢
  obtain ⟨⟨ha, hb⟩, hab⟩ := h1
  obtain ⟨⟨-, hc⟩, hbc⟩ := h2
  refine ⟨⟨ha, hc⟩, ?_⟩
  rcases hab with hab | hab
  · rcases hbc with hbc | hbc
    · exact Or.inl (hab.trans hbc)
    · exact Or.inr (hab ▸ hbc)
  · rcases hbc with hbc | hbc
    · exact Or.inr ⟨hab.1, hbc ▸ hab.2⟩
    · exact Or.inr ⟨hab.1, hbc.2⟩

theorem valuesEqual_trans {a b c : Value} (h1 : valuesEqual a b = true)
    (h2 : valuesEqual b c = true) : valuesEqual a c = true := by
  cases a <;> cases b <;> cases c <;> simp_all [valuesEqual, objectsEqual]
  exact doubleEq_trans h1 h2

theorem valuesEqual_nil_iff (a : Value) : valuesEqual a .nil = true ↔ a = .nil := by
  cases a <;> simp [valuesEqual]

/-!
# Claim C10: hash/equality compatibility
-/

/-- C10 counterexample: `+0.0` (bit pattern 0) and `-0.0` (bit pattern
`2^63`) are `values_equal` — IEEE `==` considers the two zeroes equal —
but `hash_value` hashes the two differing byte patterns to different
results. -/
theorem c10_counterexample :
    valuesEqual (Value.number 0) (Value.number (2 ^ 63)) = true ∧
    hashValue emptyStore (Value.number 0) = 2615243109 ∧
    hashValue emptyStore (Value.number (2 ^ 63)) = 467811045 ∧
    hashValue emptyStore (Value.number 0) ≠ hashValue emptyStore (Value.number (2 ^ 63)) :=
  ⟨by decide, by decide, by decide, by decide⟩

/-- C10 (amended): `values_equal a b` implies
`hash_value a = hash_value b` for all values except Number values
that compare equal while having different bit patterns (the two IEEE
zeroes), which hash differently because `hash_double` hashes the byte
pattern. -/
theorem c10_hash_agreement (σ : Store) (a b : Value)
    (heq : valuesEqual a b = true)
    (hbits : ∀ x y : Nat, a = Value.number x → b = Value.number y → x = y) :
    hashValue σ a = hashValue σ b := by
  cases a with
  | nil => cases b <;> simp_all [valuesEqual]
  | bool x => cases b <;> simp_all [valuesEqual, hashValue]
  | number x =>
    cases b with
    | number y => exact (hbits x y rfl rfl) ▸ rfl
    | nil => simp_all [valuesEqual]
    | bool y => simp_all [valuesEqual]
    | object y => simp_all [valuesEqual]
  | object r =>
    cases b with
    | object s => simp_all [valuesEqual, objectsEqual, hashValue]
    | nil => simp_all [valuesEqual]
    | bool y => simp_all [valuesEqual]
    | number y => simp_all [valuesEqual]

/-- Witness for `c10_hash_agreement` at `a = b = Number 5`. -/
theorem c10_hash_agreement_witness :
    valuesEqual (Value.number 5) (Value.number 5) = true ∧
    hashValue emptyStore (Value.number 5) = hashValue emptyStore (Value.number 5) :=
  ⟨by decide,
   c10_hash_agreement emptyStore (Value.number 5) (Value.number 5) (by decide)
     (fun x y hx hy => by
       injection hx with hx
       injection hy with hy
       rw [← hx, ← hy])⟩

/-!
# Claim C7: process exit codes
-/

/-- C7 counterexample: a run that ends in a compile error or a runtime
error still exits with status 0 — `interpret` prints the "Result:"
line and returns 0 unconditionally. -/
theorem c7_counterexample :
    (interpret RunResult.RUN_COMPILE_ERROR).2 = 0 ∧
    (interpret RunResult.RUN_RUNTIME_ERROR).2 = 0 ∧
    mainExitCode 2 RunResult.RUN_COMPILE_ERROR = 0 ∧
    mainExitCode 2 RunResult.RUN_RUNTIME_ERROR = 0 :=
  ⟨rfl, rfl, rfl, rfl⟩

/-- C7 (amended): when the program is invoked on a readable source
file, the process exit code is 0 regardless of whether interpretation
succeeded or ended in a compile or runtime error; the outcome is
reported on stdout as a "Result: ..." line instead. -/
theorem c7_exit_code (result : RunResult) :
    mainExitCode 2 result = 0 ∧ (interpret result).2 = 0 ∧
    (interpret result).1 =
      (match result with
       | .RUN_OK => "Result: OK\n"
       | .RUN_COMPILE_ERROR => "Result: Compile error\n"
       | .RUN_RUNTIME_ERROR => "Result: Runtime error\n") := by
  cases result <;> exact ⟨rfl, rfl, rfl⟩

/-!
# Claim C8: frame and value stack limits
-/

/-- C8 counterexample: `VM_STACK_MAX` is `VM_FRAMES_MAX * UINT8_MAX =
256 * 255 = 65280`, which is less than the claimed `FRAMES_MAX * 256 =
65536`; a push at slot 65280 already fails. -/
theorem c8_counterexample :
    VM_STACK_MAX = 65280 ∧ VM_STACK_MAX < VM_FRAMES_MAX * 256 ∧
    vmStackPush 65280 = none :=
  ⟨by decide, by decide, by decide⟩

/-- C8 (amended): the frame stack never holds more than
`VM_FRAMES_MAX = 256` frames — a closure call at the limit raises
"Call stack overflow." — and the value stack has
`VM_FRAMES_MAX * UINT8_MAX = 65280` slots (not `FRAMES_MAX * 256`). -/
theorem c8_frame_and_stack_limits (σ : Store) (frameCount sp argCount : Nat)
    (callee : Value) (h : frameCount ≤ VM_FRAMES_MAX) :
    (∀ fc bp, call σ frameCount sp callee argCount = .framePushed fc bp →
      fc ≤ VM_FRAMES_MAX) ∧
    (frameCount = VM_FRAMES_MAX →
      ∀ r fref nameHash arity upc, callee = Value.object r → σ r = .closure fref →
        σ fref = .function nameHash arity upc → arity = argCount →
        call σ frameCount sp callee argCount = .error "Call stack overflow.") ∧
    VM_FRAMES_MAX = 256 ∧ VM_STACK_MAX = VM_FRAMES_MAX * UINT8_MAX ∧
    VM_STACK_MAX = 65280 := by
  refine ⟨?_, ?_, rfl, rfl, by decide⟩
  · intro fc bp hcall
    have h256 : VM_FRAMES_MAX = 256 := rfl
    unfold call at hcall
    repeat' split at hcall
    all_goals simp_all
    all_goals omega
  · intro hfc r fref nameHash arity upc hc hσ hf ha
    subst hc
    simp [call, hσ, hf, ha, hfc]

/-- Witness for `c8_frame_and_stack_limits`: a well-formed closure call
below the limit pushes a frame that stays within the limit. -/
theorem c8_frame_and_stack_limits_witness :
    (0 : Nat) ≤ VM_FRAMES_MAX ∧
    (∀ fc bp,
      call (fun r => if r = 0 then .closure 1 else if r = 1 then .function 0 0 0
                     else .upvalue) 0 5 (Value.object 0) 0 = .framePushed fc bp →
      fc ≤ VM_FRAMES_MAX) :=
  ⟨by decide,
   (c8_frame_and_stack_limits
     (fun r => if r = 0 then .closure 1 else if r = 1 then .function 0 0 0 else .upvalue)
     0 5 0 (Value.object 0) (by decide)).1⟩

/-!
# Claim C9: compile-error report format
-/

/-- C9 counterexample: the first error on the identifier `x` at line 1
is reported as `[1] Error at 'x': ...` — the report never contains the
word `line`, so it does not have the claimed `[line N] Error ...`
shape. -/
theorem c9_counterexample :
    (errorAtToken ⟨false, false⟩ ⟨.TOKEN_IDENTIFIER, "x", 1⟩ "Expect expression.").1 =
      "[1] Error at 'x': Expect expression.\n" ∧
    (errorAtToken ⟨false, false⟩ ⟨.TOKEN_IDENTIFIER, "x", 1⟩ "Expect expression.").1 ≠
      specErrorReport ⟨.TOKEN_IDENTIFIER, "x", 1⟩ "Expect expression." :=
  ⟨by decide, by decide⟩

/-- C9 (amended): every compile-time error is reported as
`[N] Error at 'lexeme': message` (with ` at end` in place of the
lexeme part for the EOF token), where N is the line of the offending
token; a parser already in panic mode reports nothing and is left
unchanged, and reporting an error sets both `had_error` and
`panic_mode`. -/
theorem c9_error_report_format (st : ParserErrorState) (tok : Token) (msg : String) :
    (st.panicMode = true → errorAtToken st tok msg = ("", st)) ∧
    (st.panicMode = false →
      errorAtToken st tok msg =
        ("[" ++ toString tok.line ++ "] Error" ++
           (if tok.type = TokenType.TOKEN_EOF then " at end"
            else " at '" ++ tok.lexeme ++ "'") ++ ": " ++ msg ++ "\n",
         ⟨true, true⟩)) := by
  constructor <;> intro h <;> simp [errorAtToken, h]

/-- Witness for `c9_error_report_format`: panic mode suppresses the
report. -/
theorem c9_error_report_format_witness :
    ((⟨true, true⟩ : ParserErrorState).panicMode = true) ∧
    errorAtToken ⟨true, true⟩ ⟨.TOKEN_EOF, "", 7⟩ "boom" = ("", ⟨true, true⟩) :=
  ⟨rfl, (c9_error_report_format ⟨true, true⟩ ⟨.TOKEN_EOF, "", 7⟩ "boom").1 rfl⟩

/-!
# Claim C5: line-info run-length invariants
-/

/-- C5: `chunk_init` establishes that the sum of the line-info run
lengths equals the number of code bytes and that the recorded lines
are non-decreasing, and every `chunk_write8` call preserves both — the
sum unconditionally, the ordering under the call's own precondition
(asserted in chunk.c) that the byte's line is at least the last
recorded line.  Since `compile` builds every chunk from `chunk_init`
by `chunk_write8` calls whose lines are non-decreasing, every compiled
chunk satisfies both. -/
theorem c5_line_info_invariants (c : Chunk) (d l : Nat)
    (hsum : sumLineBytes c.lineInfos = c.code.length)
    (hsorted : linesSorted c.lineInfos)
    (hmono : ∀ li, c.lineInfos.getLast? = some li → li.line ≤ l) :
    (sumLineBytes chunkInit.lineInfos = chunkInit.code.length ∧
      linesSorted chunkInit.lineInfos) ∧
    sumLineBytes (chunkWrite8 c d l).lineInfos = (chunkWrite8 c d l).code.length ∧
    linesSorted (chunkWrite8 c d l).lineInfos := by
  refine ⟨⟨rfl, by simp [chunkInit, linesSorted]⟩, ?_⟩
  unfold chunkWrite8
  cases hlast : c.lineInfos.getLast? with
  | none =>
    have hnil : c.lineInfos = [] := List.getLast?_eq_none_iff.mp hlast
    rw [hnil] at hsum
    simp [sumLineBytes, linesSorted, hnil] at hsum ⊢
    exact List.length_eq_zero.mp hsum.symm
  | some li =>
    have hne : c.lineInfos ≠ [] := by
      intro hnil; rw [hnil] at hlast; simp at hlast
    have hdecomp : c.lineInfos = c.lineInfos.dropLast ++ [li] := by
      conv_lhs => rw [← List.dropLast_append_getLast hne]
      congr 1
      simp [List.getLast?_eq_getLast _ hne] at hlast
      simp [hlast]
    by_cases heq : li.line = l
    · simp only [heq, if_true, List.length_append]
      constructor
      · rw [hdecomp] at hsum
        simp [sumLineBytes] at *
        omega
      · rw [hdecomp] at hsorted
        simp only [linesSorted] at *
        rw [List.chain'_append] at hsorted ⊢
        obtain ⟨h1, h2, h3⟩ := hsorted
        refine ⟨h1, by simp, ?_⟩
        intro x hx y hy
        simp at hy
        subst hy
        exact heq ▸ h3 x hx li (by simp)
    · simp only [heq, if_false]
      constructor
      · simp [sumLineBytes] at *
        omega
      · simp only [linesSorted] at *
        rw [List.chain'_append]
        refine ⟨hsorted, by simp, ?_⟩
        intro x hx y hy
        simp at hy
        subst hy
        rw [hlast] at hx
        simp at hx
        subst hx
        exact hmono li hlast

/-- Witness for `c5_line_info_invariants`: writing one byte into a
fresh chunk. -/
theorem c5_line_info_invariants_witness :
    (sumLineBytes chunkInit.lineInfos = chunkInit.code.length ∧
      linesSorted chunkInit.lineInfos) ∧
    sumLineBytes (chunkWrite8 chunkInit 7 3).lineInfos =
      (chunkWrite8 chunkInit 7 3).code.length ∧
    linesSorted (chunkWrite8 chunkInit 7 3).lineInfos :=
  c5_line_info_invariants chunkInit 7 3 rfl (by simp [chunkInit, linesSorted]) (by simp [chunkInit])

/-!
# Claim C6: the open-upvalue list invariant
-/

theorem captureUpvalue_head? (l : List Nat) (t : Nat) :
    ∀ y, (captureUpvalue l t).head? = some y → y = t ∨ l.head? = some y := by
  intro y hy
  cases l with
  | nil => simp [captureUpvalue] at hy; exact Or.inl hy.symm
  | cons x xs =>
    simp only [captureUpvalue] at hy
    split at hy
    · simp at hy; exact Or.inr (by simp [hy])
    · split at hy
      · simp at hy; exact Or.inr (by simp [hy])
      · simp at hy; exact Or.inl hy.symm

theorem captureUpvalue_chain' (l : List Nat) (t : Nat) (h : l.Chain' (· > ·)) :
    (captureUpvalue l t).Chain' (· > ·) := by
  induction l with
  | nil => simp [captureUpvalue]
  | cons x xs ih =>
    simp only [captureUpvalue]
    rw [List.chain'_cons'] at h
    obtain ⟨hhead, htail⟩ := h
    split
    · rw [List.chain'_cons']
      refine ⟨?_, ih htail⟩
      intro y hy
      rcases captureUpvalue_head? xs t y hy with rfl | hmem
      · assumption
      · exact hhead y hmem
    · split
      · rw [List.chain'_cons']
        exact ⟨hhead, htail⟩
      · rw [List.chain'_cons']
        refine ⟨?_, by rw [List.chain'_cons']; exact ⟨hhead, htail⟩⟩
        intro y hy
        simp at hy
        subst hy
        omega

theorem mem_captureUpvalue (l : List Nat) (t : Nat) : t ∈ captureUpvalue l t := by
  induction l with
  | nil => simp [captureUpvalue]
  | cons x xs ih =>
    simp only [captureUpvalue]
    split
    · exact List.mem_cons_of_mem x ih
    · next h1 =>
      split
      · next h2 => subst h2; exact List.mem_cons_self x xs
      · exact List.mem_cons_self t _

theorem captureUpvalue_eq_of_mem (l : List Nat) (t : Nat) (hs : l.Chain' (· > ·))
    (hm : t ∈ l) : captureUpvalue l t = l := by
  induction l with
  | nil => simp at hm
  | cons x xs ih =>
    have hpw : (x :: xs).Pairwise (· > ·) := (List.chain'_iff_pairwise).mp hs
    rcases List.mem_cons.mp hm with rfl | hm'
    · simp [captureUpvalue]
    · have hxt : x > t := (List.pairwise_cons.mp hpw).1 t hm'
      simp only [captureUpvalue, if_pos hxt]
      rw [ih ((List.chain'_cons'.mp hs).2) hm']

theorem captureUpvalue_perm_of_not_mem (l : List Nat) (t : Nat) (hm : t ∉ l) :
    (captureUpvalue l t).Perm (t :: l) := by
  induction l with
  | nil => simp [captureUpvalue]
  | cons x xs ih =>
    have hxt : x ≠ t := fun h => hm (h ▸ List.mem_cons_self x xs)
    have hm' : t ∉ xs := fun h => hm (List.mem_cons_of_mem x h)
    by_cases h1 : x > t
    · simp only [captureUpvalue, if_pos h1]
      exact ((ih hm').cons x).trans (List.Perm.swap t x xs)
    · simp only [captureUpvalue, if_neg h1, if_neg hxt]
      exact List.Perm.refl _

theorem closeUpvalue_prefix (l : List Nat) (t : Nat) :
    ∃ p, l = p ++ closeUpvalue l t ∧ ∀ x ∈ p, t ≤ x := by
  refine ⟨l.takeWhile (fun x => t ≤ x), ?_, ?_⟩
  · rw [closeUpvalue, List.takeWhile_append_dropWhile]
  · intro x hx
    have := List.mem_takeWhile_imp hx
    simpa using this

theorem applyUpvalueOps_chain' (ops : List UpvalueOp) (l : List Nat)
    (h : l.Chain' (· > ·)) : (applyUpvalueOps l ops).Chain' (· > ·) := by
  induction ops generalizing l with
  | nil => exact h
  | cons op rest ih =>
    cases op with
    | capture t => exact ih _ (captureUpvalue_chain' l t h)
    | close t =>
      refine ih _ ?_
      obtain ⟨p, hp, -⟩ := closeUpvalue_prefix l t
      have hsub : (closeUpvalue l t).Sublist l := by
        conv_rhs => rw [hp]
        exact List.sublist_append_right p _
      exact h.sublist hsub

/-- C6: starting from the NULL list set up by `object_root_init`,
every sequence of `capture_upvalue` / `close_upvalue` operations (the
only mutators the instruction loop uses) leaves the open-upvalue list
strictly descending in target address, so no two entries share a
target; `capture_upvalue` preserves sortedness by reusing the entry
with an equal target when one exists and otherwise inserting at the
order-preserving position (one new element in front of the strictly
smaller suffix); `close_upvalue` only removes a prefix of the list
(the entries with target at or above the threshold). -/
theorem c6_open_upvalue_list_invariant :
    (∀ ops : List UpvalueOp,
      (applyUpvalueOps [] ops).Chain' (· > ·) ∧
      (applyUpvalueOps [] ops).Pairwise (· ≠ ·)) ∧
    (∀ (l : List Nat) (t : Nat), l.Chain' (· > ·) →
      (captureUpvalue l t).Chain' (· > ·) ∧ t ∈ captureUpvalue l t ∧
      (t ∈ l → captureUpvalue l t = l) ∧
      (t ∉ l → (captureUpvalue l t).Perm (t :: l))) ∧
    (∀ (l : List Nat) (t : Nat), ∃ p, l = p ++ closeUpvalue l t ∧ ∀ x ∈ p, t ≤ x) := by
  refine ⟨?_, ?_, closeUpvalue_prefix⟩
  · intro ops
    have hc := applyUpvalueOps_chain' ops [] (by simp)
    exact ⟨hc, ((List.chain'_iff_pairwise).mp hc).imp Nat.ne_of_gt⟩
  · intro l t hs
    exact ⟨captureUpvalue_chain' l t hs, mem_captureUpvalue l t,
      fun hm => captureUpvalue_eq_of_mem l t hs hm,
      fun hm => captureUpvalue_perm_of_not_mem l t hm⟩

/-- Witness for `c6_open_upvalue_list_invariant`: capturing target 4
into the sorted list [5, 3]. -/
theorem c6_open_upvalue_list_invariant_witness :
    ([5, 3] : List Nat).Chain' (· > ·) ∧
    (captureUpvalue [5, 3] 4).Chain' (· > ·) ∧ 4 ∈ captureUpvalue [5, 3] 4 :=
  have hc : ([5, 3] : List Nat).Chain' (· > ·) := by
    simp [List.chain'_cons]
  ⟨hc, (c6_open_upvalue_list_invariant.2.1 [5, 3] 4 hc).1,
    (c6_open_upvalue_list_invariant.2.1 [5, 3] 4 hc).2.1⟩

/-!
# Claim C3: jump displacement encoding and the VM jump semantics
-/

theorem getD_append_right {α : Type} (l l' : List α) (i : Nat) (d : α) :
    (l ++ l').getD (l.length + i) d = l'.getD i d := by
  induction l with
  | nil => simp
  | cons x xs ih =>
    rw [List.cons_append, List.length_cons, Nat.add_right_comm _ 1 i, List.getD_cons_succ, ih]

theorem set_append_right {α : Type} (l l' : List α) (i : Nat) (a : α) :
    (l ++ l').set (l.length + i) a = l ++ l'.set i a := by
  induction l with
  | nil => simp
  | cons x xs ih =>
    rw [List.cons_append, List.length_cons, Nat.add_right_comm _ 1 i, List.set_cons_succ, ih,
      List.cons_append]

theorem chunkWrite8_code (c : Chunk) (d l : Nat) :
    (chunkWrite8 c d l).code = c.code ++ [d % 256] := by
  unfold chunkWrite8
  cases c.lineInfos.getLast? <;> simp
  split <;> rfl

theorem decode_int16Bytes (d : Int) (h1 : int16Min ≤ d) (h2 : d ≤ int16Max) :
    decodeInt16 (int16Bytes d).1 (int16Bytes d).2 = d := by
  unfold int16Bytes decodeInt16 int16Min int16Max at *
  simp only []
  split_ifs <;> omega

theorem getD_set_self {α : Type} (l : List α) (i : Nat) (a d : α) (h : i < l.length) :
    (l.set i a).getD i d = a := by
  induction l generalizing i with
  | nil => simp at h
  | cons x xs ih =>
    cases i with
    | zero => rfl
    | succ n =>
      rw [List.set_cons_succ, List.getD_cons_succ]
      exact ih n (by simpa using h)

theorem getD_set_ne {α : Type} (l : List α) (i j : Nat) (a d : α) (h : i ≠ j) :
    (l.set i a).getD j d = l.getD j d := by
  induction l generalizing i j with
  | nil => simp [List.set]
  | cons x xs ih =>
    cases i with
    | zero =>
      cases j with
      | zero => exact absurd rfl h
      | succ m => rfl
    | succ n =>
      cases j with
      | zero => rfl
      | succ m =>
        rw [List.set_cons_succ, List.getD_cons_succ, List.getD_cons_succ]
        exact ih n m (fun hh => h (by rw [hh]))

/-- C3: a jump emitted by `emit_jump_to` or patched by
`patch_jump_from` stores a 16-bit displacement `d` with
`target = address_of_jump_instruction + 3 + d`; the compiler reports
"Can't jump this far." exactly when the required displacement falls
outside [-32768, 32767]; and the VM's OP_JUMP / OP_JUMP_IF_TRUE /
OP_JUMP_IF_FALSE add the decoded displacement to the ip positioned
immediately after the 3-byte instruction, transferring control to
exactly that target (conditional jumps fall through to
`address + 3` when the condition does not hold). -/
theorem c3_jump_encoding (c : Chunk) (line opcode toAddr fromAddr : Nat) (top : Value) :
    ((emitJumpTo c line opcode toAddr).2 = true ↔
      ((toAddr : Int) - c.code.length - 3 < -32768 ∨
        32767 < (toAddr : Int) - c.code.length - 3)) ∧
    ((emitJumpTo c line opcode toAddr).2 = false →
      execJump (emitJumpTo c line opcode toAddr).1.code (c.code.length + 1) = toAddr) ∧
    ((patchJumpFrom c fromAddr).2 = true ↔
      ((c.code.length : Int) - fromAddr - 3 < -32768 ∨
        32767 < (c.code.length : Int) - fromAddr - 3)) ∧
    (fromAddr + 3 ≤ c.code.length → (patchJumpFrom c fromAddr).2 = false →
      execJump (patchJumpFrom c fromAddr).1.code (fromAddr + 1) = c.code.length ∧
      (valueIsTruey top = true →
        execJumpIfTrue (patchJumpFrom c fromAddr).1.code (fromAddr + 1) top = c.code.length) ∧
      (valueIsFalsey top = true →
        execJumpIfFalse (patchJumpFrom c fromAddr).1.code (fromAddr + 1) top = c.code.length) ∧
      (valueIsTruey top = false →
        execJumpIfTrue (patchJumpFrom c fromAddr).1.code (fromAddr + 1) top = fromAddr + 3) ∧
      (valueIsFalsey top = false →
        execJumpIfFalse (patchJumpFrom c fromAddr).1.code (fromAddr + 1) top = fromAddr + 3)) := by
  constructor
  · simp only [emitJumpTo, int16Min, int16Max]
    split_ifs with hr
    · simpa using hr
    · simpa using hr
  constructor
  · intro hok
    simp only [emitJumpTo, int16Min, int16Max] at hok ⊢
    split_ifs at hok ⊢ with hr
    set n := c.code.length with hn
    set diff : Int := (toAddr : Int) - n - 3 with hdiff
    have hcode : (chunkWrite8 (chunkWrite8 (chunkWrite8 c opcode line) 0 line) 0 line).code
        = c.code ++ [opcode % 256, 0 % 256, 0 % 256] := by
      rw [chunkWrite8_code, chunkWrite8_code, chunkWrite8_code]
      simp
    have hset : ((chunkWrite8 (chunkWrite8 (chunkWrite8 c opcode line) 0 line) 0 line).code.set
          (n + 1) (int16Bytes diff).1).set (n + 2) (int16Bytes diff).2
        = c.code ++ [opcode % 256, (int16Bytes diff).1, (int16Bytes diff).2] := by
      rw [hcode]
      have e1 : n + 1 = c.code.length + 1 := by rw [hn]
      have e2 : n + 2 = c.code.length + 2 := by rw [hn]
      rw [e1, e2, set_append_right c.code _ 1, set_append_right c.code _ 2]
      rfl
    simp only [execJump, readInt16]
    rw [hset]
    have g1 : (c.code ++ [opcode % 256, (int16Bytes diff).1, (int16Bytes diff).2]).getD
        (n + 1) 0 = (int16Bytes diff).1 := by
      have : n + 1 = c.code.length + 1 := by rw [hn]
      rw [this, getD_append_right c.code _ 1]
      rfl
    have g2 : (c.code ++ [opcode % 256, (int16Bytes diff).1, (int16Bytes diff).2]).getD
        (n + 1 + 1) 0 = (int16Bytes diff).2 := by
      have : n + 1 + 1 = c.code.length + 2 := by rw [hn]
      rw [this, getD_append_right c.code _ 2]
      rfl
    rw [g1, g2]
    have hd := decode_int16Bytes diff (by unfold int16Min; omega) (by unfold int16Max; omega)
    rw [hd]
    omega
  constructor
  · simp only [patchJumpFrom, int16Min, int16Max]
    split_ifs with hr
    · simpa using hr
    · simpa using hr
  · intro hlen hok
    simp only [patchJumpFrom, int16Min, int16Max] at hok ⊢
    split_ifs at hok ⊢ with hr
    set diff : Int := (c.code.length : Int) - fromAddr - 3 with hdiff
    have g1 : ((c.code.set (fromAddr + 1) (int16Bytes diff).1).set (fromAddr + 2)
        (int16Bytes diff).2).getD (fromAddr + 1) 0 = (int16Bytes diff).1 := by
      rw [getD_set_ne _ _ _ _ _ (by omega), getD_set_self _ _ _ _ (by omega)]
    have g2 : ((c.code.set (fromAddr + 1) (int16Bytes diff).1).set (fromAddr + 2)
        (int16Bytes diff).2).getD (fromAddr + 1 + 1) 0 = (int16Bytes diff).2 := by
      have h12 : fromAddr + 1 + 1 = fromAddr + 2 := by omega
      rw [h12, getD_set_self _ _ _ _ (by simp; omega)]
    have hd := decode_int16Bytes diff (by unfold int16Min; omega) (by unfold int16Max; omega)
    refine ⟨?_, ?_, ?_, ?_, ?_⟩
    · simp only [execJump, readInt16]
      rw [g1, g2, hd]
      omega
    · intro ht
      simp only [execJumpIfTrue, readInt16, ht, if_true]
      rw [g1, g2, hd]
      omega
    · intro ht
      simp only [execJumpIfFalse, readInt16, ht, if_true]
      rw [g1, g2, hd]
      omega
    · intro ht
      simp only [execJumpIfTrue, readInt16, ht, Bool.false_eq_true, if_false]
      omega
    · intro ht
      simp only [execJumpIfFalse, readInt16, ht, Bool.false_eq_true, if_false]
      omega


/-- Witness for `c3_jump_encoding`: a backward jump to address 0
emitted into a fresh chunk, and a patch of a jump at address 0 in a
3-byte chunk. -/
theorem c3_jump_encoding_witness :
    (emitJumpTo chunkInit 1 30 0).2 = false ∧
    execJump (emitJumpTo chunkInit 1 30 0).1.code (chunkInit.code.length + 1) = (0 : Int) ∧
    (0 : Nat) + 3 ≤ (Chunk.mk [1, 2, 3] [] []).code.length ∧
    (patchJumpFrom (Chunk.mk [1, 2, 3] [] []) 0).2 = false ∧
    execJump (patchJumpFrom (Chunk.mk [1, 2, 3] [] []) 0).1.code (0 + 1) =
      ((Chunk.mk [1, 2, 3] [] []).code.length : Int) :=
  ⟨by decide, (c3_jump_encoding chunkInit 1 30 0 0 Value.nil).2.1 (by decide), by decide,
    by decide,
    ((c3_jump_encoding (Chunk.mk [1, 2, 3] [] []) 1 30 0 0 Value.nil).2.2.2 (by decide)
      (by decide)).1⟩


/-! probe index arithmetic -/

theorem probeAt_lt (hstart cap j : Nat) (hcap : 0 < cap) : probeAt hstart cap j < cap :=
  Nat.mod_lt _ hcap

theorem probeAt_inj (hstart cap : Nat) {i j : Nat} (hi : i < cap) (hj : j < cap)
    (h : probeAt hstart cap i = probeAt hstart cap j) : i = j := by
  unfold probeAt at h
  rcases Nat.lt_or_ge (hstart % cap + i) cap with h1 | h1
  · rcases Nat.lt_or_ge (hstart % cap + j) cap with h2 | h2
    · rw [Nat.mod_eq_of_lt h1, Nat.mod_eq_of_lt h2] at h
      omega
    · have hs : hstart % cap < cap := Nat.mod_lt _ (by omega)
      have e2 : (hstart % cap + j) % cap = hstart % cap + j - cap := by
        rw [Nat.mod_eq_sub_mod h2, Nat.mod_eq_of_lt (by omega)]
      rw [Nat.mod_eq_of_lt h1, e2] at h
      omega
  · have hs : hstart % cap < cap := Nat.mod_lt _ (by omega)
    have e1 : (hstart % cap + i) % cap = hstart % cap + i - cap := by
      rw [Nat.mod_eq_sub_mod h1, Nat.mod_eq_of_lt (by omega)]
    rcases Nat.lt_or_ge (hstart % cap + j) cap with h2 | h2
    · rw [e1, Nat.mod_eq_of_lt h2] at h
      omega
    · have e2 : (hstart % cap + j) % cap = hstart % cap + j - cap := by
        rw [Nat.mod_eq_sub_mod h2, Nat.mod_eq_of_lt (by omega)]
      rw [e1, e2] at h
      omega

theorem probeAt_surj (hstart cap e : Nat) (he : e < cap) :
    ∃ j, j < cap ∧ probeAt hstart cap j = e := by
  have hcap : 0 < cap := by omega
  have hs : hstart % cap < cap := Nat.mod_lt _ hcap
  rcases le_or_lt (hstart % cap) e with h | h
  · refine ⟨e - hstart % cap, by omega, ?_⟩
    unfold probeAt
    have he2 : hstart % cap + (e - hstart % cap) = e := by omega
    rw [he2, Nat.mod_eq_of_lt he]
  · refine ⟨e + cap - hstart % cap, by omega, ?_⟩
    unfold probeAt
    have : hstart % cap + (e + cap - hstart % cap) = e + cap := by omega
    rw [this, Nat.add_mod_right, Nat.mod_eq_of_lt he]

theorem shift_probe (start i cap : Nat) : ((start + 1) % cap + i) % cap = (start + (i + 1)) % cap := by
  rw [Nat.mod_add_mod]
  congr 1
  omega

theorem findAux_spec (entries : List Entry) (cap : Nat) (M : Entry → Bool) :
    ∀ fuel start tomb p, start < cap →
    findAux entries cap M start fuel tomb = some p →
    (∃ j, j < fuel ∧ p = (start + j) % cap ∧
      (∀ i, i < j → (bucketAt entries ((start + i) % cap)).isEmptyBucket = false ∧
        ((bucketAt entries ((start + i) % cap)).key.isNil = false →
          M (bucketAt entries ((start + i) % cap)) = false)) ∧
      ((bucketAt entries p).key.isNil = true ∨
        ((bucketAt entries p).key.isNil = false ∧ M (bucketAt entries p) = true))) ∨
    (∃ t0, tomb = some t0 ∧ p = t0) := by
  intro fuel
  induction fuel with
  | zero =>
    intro start tomb p hs h
    simp [findAux] at h
  | succ f ih =>
    intro start tomb p hs h
    simp only [findAux] at h
    by_cases h1 : (entries.getD start Entry.empty).key.isNil
    · rw [if_pos h1] at h
      by_cases h2 : (entries.getD start Entry.empty).value.isNil
      · rw [if_pos h2] at h
        injection h with h
        cases tomb with
        | none =>
          simp only [Option.getD_none] at h
          subst h
          left
          refine ⟨0, by omega, ?_, fun i hi => absurd hi (by omega), Or.inl h1⟩
          rw [Nat.add_zero, Nat.mod_eq_of_lt hs]
        | some t0 =>
          simp only [Option.getD_some] at h
          exact Or.inr ⟨t0, rfl, h.symm⟩
      · rw [if_neg h2] at h
        have hs2 : (start + 1) % cap < cap := Nat.mod_lt _ (by omega)
        rcases ih ((start + 1) % cap) _ p hs2 h with ⟨j, hj, hp, hpre, hend⟩ | ⟨t0, htomb, hp⟩
        · left
          refine ⟨j + 1, by omega, ?_, ?_, hend⟩
          · rw [hp, shift_probe]
          · intro i hi
            cases i with
            | zero =>
              rw [Nat.add_zero, Nat.mod_eq_of_lt hs]
              constructor
              · simp only [bucketAt, Entry.isEmptyBucket, h1, Bool.true_and]
                simpa using h2
              · intro hact
                rw [bucketAt] at hact
                rw [h1] at hact
                cases hact
            | succ i0 =>
              have := hpre i0 (by omega)
              rwa [shift_probe] at this
        · injection htomb with htomb
          cases tomb with
          | none =>
            simp only [Option.getD_none] at htomb
            subst htomb
            subst hp
            left
            refine ⟨0, by omega, ?_, fun i hi => absurd hi (by omega), Or.inl h1⟩
            rw [Nat.add_zero, Nat.mod_eq_of_lt hs]
          | some t0' =>
            simp only [Option.getD_some] at htomb
            subst htomb
            exact Or.inr ⟨t0', rfl, hp⟩
    · rw [if_neg h1] at h
      by_cases h3 : M (entries.getD start Entry.empty)
      · rw [if_pos h3] at h
        injection h with h
        subst h
        left
        refine ⟨0, by omega, ?_,
          fun i hi => absurd hi (by omega),
          Or.inr ⟨by simpa [bucketAt] using h1, by rw [bucketAt]; exact h3⟩⟩
        rw [Nat.add_zero, Nat.mod_eq_of_lt hs]
      · rw [if_neg h3] at h
        have hs2 : (start + 1) % cap < cap := Nat.mod_lt _ (by omega)
        rcases ih ((start + 1) % cap) tomb p hs2 h with ⟨j, hj, hp, hpre, hend⟩ | hr
        · left
          refine ⟨j + 1, by omega, ?_, ?_, hend⟩
          · rw [hp, shift_probe]
          · intro i hi
            cases i with
            | zero =>
              rw [Nat.add_zero, Nat.mod_eq_of_lt hs]
              refine ⟨?_, fun _ => by simpa [bucketAt] using h3⟩
              have h1f : (entries.getD start Entry.empty).key.isNil = false := by
                simpa using h1
              simp only [bucketAt, Entry.isEmptyBucket, h1f, Bool.false_and]
            | succ i0 =>
              have := hpre i0 (by omega)
              rwa [shift_probe] at this
        · exact Or.inr hr

theorem findAux_match_at (entries : List Entry) (cap : Nat) (M : Entry → Bool) :
    ∀ fuel start tomb j, start < cap → j < fuel →
    (∀ i, i < j → (bucketAt entries ((start + i) % cap)).isEmptyBucket = false ∧
      ((bucketAt entries ((start + i) % cap)).key.isNil = false →
        M (bucketAt entries ((start + i) % cap)) = false)) →
    (bucketAt entries ((start + j) % cap)).key.isNil = false →
    M (bucketAt entries ((start + j) % cap)) = true →
    findAux entries cap M start fuel tomb = some ((start + j) % cap) := by
  intro fuel
  induction fuel with
  | zero =>
    intro start tomb j hs hj
    omega
  | succ f ih =>
    intro start tomb j hs hj hpre hact hM
    simp only [findAux]
    cases j with
    | zero =>
      have e0 : (start + 0) % cap = start := by rw [Nat.add_zero, Nat.mod_eq_of_lt hs]
      rw [e0] at hact hM ⊢
      rw [bucketAt] at hact hM
      rw [if_neg (fun hc => by rw [hc] at hact; cases hact), if_pos hM]
    | succ j0 =>
      have h0 := hpre 0 (by omega)
      rw [Nat.add_zero, Nat.mod_eq_of_lt hs] at h0
      have hs2 : (start + 1) % cap < cap := Nat.mod_lt _ (by omega)
      have hpre2 : ∀ i, i < j0 →
          (bucketAt entries (((start + 1) % cap + i) % cap)).isEmptyBucket = false ∧
          ((bucketAt entries (((start + 1) % cap + i) % cap)).key.isNil = false →
            M (bucketAt entries (((start + 1) % cap + i) % cap)) = false) := by
        intro i hi
        rw [shift_probe]
        exact hpre (i + 1) (by omega)
      have hact2 : (bucketAt entries (((start + 1) % cap + j0) % cap)).key.isNil = false := by
        rw [shift_probe]; exact hact
      have hM2 : M (bucketAt entries (((start + 1) % cap + j0) % cap)) = true := by
        rw [shift_probe]; exact hM
      by_cases h1 : (entries.getD start Entry.empty).key.isNil
      · rw [if_pos h1]
        have h2 : (entries.getD start Entry.empty).value.isNil = false := by
          have := h0.1
          rw [bucketAt, Entry.isEmptyBucket, h1, Bool.true_and] at this
          exact this
        rw [if_neg (fun hc => by rw [hc] at h2; cases h2)]
        rw [ih ((start + 1) % cap) _ j0 hs2 (by omega) hpre2 hact2 hM2, shift_probe]
      · rw [if_neg h1]
        have hM0 : M (entries.getD start Entry.empty) = false := by
          have := h0.2
          rw [bucketAt] at this
          exact this (by simpa using h1)
        rw [if_neg (fun hc => by rw [hc] at hM0; cases hM0)]
        rw [ih ((start + 1) % cap) tomb j0 hs2 (by omega) hpre2 hact2 hM2, shift_probe]

theorem findAux_some_of_empty (entries : List Entry) (cap : Nat) (M : Entry → Bool) :
    ∀ fuel start tomb, start < cap →
    (∃ j, j < fuel ∧ (bucketAt entries ((start + j) % cap)).isEmptyBucket = true) →
    ∃ p, findAux entries cap M start fuel tomb = some p := by
  intro fuel
  induction fuel with
  | zero =>
    intro start tomb hs ⟨j, hj, _⟩
    omega
  | succ f ih =>
    intro start tomb hs ⟨j, hj, hempty⟩
    simp only [findAux]
    by_cases h1 : (entries.getD start Entry.empty).key.isNil
    · rw [if_pos h1]
      by_cases h2 : (entries.getD start Entry.empty).value.isNil
      · rw [if_pos h2]
        exact ⟨_, rfl⟩
      · rw [if_neg h2]
        have hs2 : (start + 1) % cap < cap := Nat.mod_lt _ (by omega)
        have hj0 : j ≠ 0 := by
          intro hj0
          subst hj0
          rw [Nat.add_zero, Nat.mod_eq_of_lt hs, bucketAt, Entry.isEmptyBucket, h1,
            Bool.true_and] at hempty
          rw [hempty] at h2
          exact h2 rfl
        refine ih ((start + 1) % cap) _ hs2 ⟨j - 1, by omega, ?_⟩
        rw [shift_probe]
        have hj1 : j - 1 + 1 = j := by omega
        rw [hj1]
        exact hempty
    · rw [if_neg h1]
      by_cases h3 : M (entries.getD start Entry.empty)
      · rw [if_pos h3]
        exact ⟨_, rfl⟩
      · rw [if_neg h3]
        have hs2 : (start + 1) % cap < cap := Nat.mod_lt _ (by omega)
        have hj0 : j ≠ 0 := by
          intro hj0
          subst hj0
          rw [Nat.add_zero, Nat.mod_eq_of_lt hs, bucketAt, Entry.isEmptyBucket] at hempty
          rw [Bool.and_eq_true] at hempty
          exact h1 hempty.1
        refine ih ((start + 1) % cap) tomb hs2 ⟨j - 1, by omega, ?_⟩
        rw [shift_probe]
        have hj1 : j - 1 + 1 = j := by omega
        rw [hj1]
        exact hempty

/-! bucket and count helpers -/

theorem bucketAt_eq_getElem (entries : List Entry) (i : Nat) (h : i < entries.length) :
    bucketAt entries i = entries[i] := by
  rw [bucketAt, List.getD_eq_getElem?_getD, List.getElem?_eq_getElem h, Option.getD_some]

theorem exists_empty_bucket (entries : List Entry)
    (h : nonEmptyCount entries < entries.length) :
    ∃ e, e < entries.length ∧ (bucketAt entries e).isEmptyBucket = true := by
  by_contra hc
  push_neg at hc
  have hall : ∀ a ∈ entries, (fun e => !e.isEmptyBucket) a = true := by
    intro a ha
    obtain ⟨n, hn, rfl⟩ := List.mem_iff_getElem.mp ha
    have := hc n hn
    rw [bucketAt_eq_getElem entries n hn] at this
    simpa using this
  rw [nonEmptyCount, List.countP_eq_length.mpr hall] at h
  omega

theorem nonEmptyCount_set_le (entries : List Entry) (q : Nat) (e : Entry)
    (h : q < entries.length) :
    nonEmptyCount (entries.set q e) ≤ nonEmptyCount entries + 1 := by
  rw [nonEmptyCount, nonEmptyCount, List.countP_set _ _ _ _ h]
  split_ifs <;> omega

theorem nonEmptyCount_set_eq_of (entries : List Entry) (q : Nat) (e : Entry)
    (h : q < entries.length) (hold : (bucketAt entries q).isEmptyBucket = false)
    (hnew : e.isEmptyBucket = false) :
    nonEmptyCount (entries.set q e) = nonEmptyCount entries := by
  rw [nonEmptyCount, nonEmptyCount, List.countP_set _ _ _ _ h]
  rw [bucketAt_eq_getElem entries q h] at hold
  simp [hold, hnew]
  have : (fun e => !e.isEmptyBucket) entries[q] = true := by simp [hold]
  have hle := List.boole_getElem_le_countP (fun e => !e.isEmptyBucket) entries q h
  rw [if_pos this] at hle
  omega

theorem nonEmptyCount_pos (entries : List Entry) (q : Nat) (h : q < entries.length)
    (hq : (bucketAt entries q).isEmptyBucket = false) :
    1 ≤ nonEmptyCount entries := by
  rw [nonEmptyCount]
  rw [Nat.succ_le, List.countP_pos_iff]
  refine ⟨entries[q], List.getElem_mem _, ?_⟩
  rw [bucketAt_eq_getElem entries q h] at hq
  simp [hq]

theorem activeCount_le_nonEmptyCount (entries : List Entry) :
    activeCount entries ≤ nonEmptyCount entries := by
  rw [activeCount, nonEmptyCount]
  apply List.countP_mono_left
  intro e he h
  simp only [Bool.not_eq_true'] at h ⊢
  rw [Entry.isEmptyBucket, h, Bool.false_and]
/-! locating a bound entry -/

theorem findAux_of_MBound (entries : List Entry) (cap : Nat) (M : Entry → Bool)
    (hstart p : Nat) (hcap : 0 < cap) (hb : MBound entries cap M hstart p) :
    findAux entries cap M (hstart % cap) cap none = some p := by
  obtain ⟨hp, hact, hM, ⟨j, hj, hpj, hpre⟩, huniq⟩ := hb
  have hs : hstart % cap < cap := Nat.mod_lt _ hcap
  have hpj' : p = (hstart % cap + j) % cap := hpj
  rw [hpj']
  apply findAux_match_at entries cap M cap (hstart % cap) none j hs hj
  · intro i hi
    have hii : probeAt hstart cap i = (hstart % cap + i) % cap := rfl
    constructor
    · rw [← hii]
      exact hpre i hi
    · intro hactI
      have hne : (hstart % cap + i) % cap ≠ p := by
        rw [hpj']
        intro hcontra
        have := probeAt_inj hstart cap (by omega : i < cap) (by omega : j < cap) hcontra
        omega
      have := huniq ((hstart % cap + i) % cap) (Nat.mod_lt _ hcap) hne hactI
      exact this
  · rw [← hpj']
    exact hact
  · rw [← hpj']
    exact hM

theorem findEntry_of_keyBound (σ : Store) (t : Table) (k v : Value)
    (hcap : 0 < t.capacity)
    (hb : KeyBound σ t k v) :
    ∃ p, findEntry σ t k = some p ∧ bucketAt t.entries p = ⟨k, v⟩ ∧
      MBound t.entries t.capacity (fun e => valuesEqual e.key k) (hashValue σ k) p := by
  obtain ⟨p, hMb, hpe⟩ := hb
  exact ⟨p, findAux_of_MBound _ _ _ _ _ hcap hMb, hpe, hMb⟩

/-! table_get on a bound key -/

theorem tableGet_of_keyBound (σ : Store) (t : Table) (k v : Value)
    (hinv : TableInv t) (hk : k.isNil = false) (hb : KeyBound σ t k v) :
    tableGet σ t k = some v := by
  obtain ⟨p, hMb, hpe⟩ := hb
  have hcap : 0 < t.capacity := by
    have := hMb.1
    omega
  have hcount : t.count ≠ 0 := by
    have h1 : 1 ≤ nonEmptyCount t.entries := by
      apply nonEmptyCount_pos t.entries p (by rw [hinv.len]; exact hMb.1)
      rw [hpe, Entry.isEmptyBucket]
      have : (⟨k, v⟩ : Entry).key = k := rfl
      rw [this, hk, Bool.false_and]
    have := hinv.ne_le
    omega
  obtain ⟨p', hfind, hpe', hMb'⟩ := findEntry_of_keyBound σ t k v hcap ⟨p, hMb, hpe⟩
  rw [tableGet, if_neg (by rw [hk]; exact Bool.false_ne_true), if_neg hcount, hfind]
  rw [bucketAt] at hpe'
  simp only [hpe']
  rw [hk]
  rfl
/-! table_get on a free key -/

theorem findEntry_some_nil_of_keyFree (σ : Store) (t : Table) (k : Value)
    (hinv : TableInv t) (hcap : 0 < t.capacity)
    (hfree : KeyFree t k) :
    ∃ p, findEntry σ t k = some p ∧ (bucketAt t.entries p).key.isNil = true := by
  have hne : nonEmptyCount t.entries < t.capacity := by
    have h1 := hinv.ne_le
    have h2 := hinv.load
    omega
  obtain ⟨e, he, hee⟩ := exists_empty_bucket t.entries (by rw [hinv.len]; exact hne)
  rw [hinv.len] at he
  have hs : hashValue σ k % t.capacity < t.capacity := Nat.mod_lt _ hcap
  obtain ⟨j, hj, hpj⟩ := probeAt_surj (hashValue σ k) t.capacity e he
  obtain ⟨p, hfind⟩ := findAux_some_of_empty t.entries t.capacity
    (fun e => valuesEqual e.key k) t.capacity (hashValue σ k % t.capacity) none hs
    ⟨j, hj, by rw [← hpj] at hee; exact hee⟩
  refine ⟨p, hfind, ?_⟩
  rcases findAux_spec t.entries t.capacity _ t.capacity _ none p hs hfind with
    ⟨j', hj', hpj', hpre, hend⟩ | ⟨t0, ht0, -⟩
  · rcases hend with h | ⟨hact, hM⟩
    · exact h
    · exfalso
      have hplt : p < t.capacity := by
        rw [hpj']
        exact Nat.mod_lt _ hcap
      have := hfree p hplt (by rw [activeAt]; exact hact)
      rw [this] at hM
      cases hM
  · cases ht0

theorem tableGet_none_of_keyFree (σ : Store) (t : Table) (k : Value)
    (hinv : TableInv t) (hk : k.isNil = false) (hfree : KeyFree t k) :
    tableGet σ t k = none := by
  rw [tableGet, if_neg (by rw [hk]; exact Bool.false_ne_true)]
  by_cases hcount : t.count = 0
  · rw [if_pos hcount]
  · rw [if_neg hcount]
    by_cases hcap : t.capacity = 0
    · have : findEntry σ t k = none := by
        rw [findEntry, hcap]
        rfl
      rw [this]
    · obtain ⟨p, hfind, hnil⟩ := findEntry_some_nil_of_keyFree σ t k hinv (by omega) hfree
      rw [hfind]
      rw [bucketAt] at hnil
      simp [hnil]
      rw [← List.getD_eq_getElem?_getD]
      exact hnil
/-! inserting a fresh entry creates a unique reachable binding -/

theorem insert_creates_MBound (σ : Store) (entries : List Entry) (cap : Nat)
    (src : Entry) (M : Entry → Bool)
    (hcap : 0 < cap) (hlen : entries.length = cap) (hne : nonEmptyCount entries < cap)
    (hkey : src.key.isNil = false) (hMsrc : M src = true)
    (hfreeEq : ∀ q, q < cap → activeAt entries q →
      valuesEqual (bucketAt entries q).key src.key = false)
    (hfreeM : ∀ q, q < cap → activeAt entries q → M (bucketAt entries q) = false) :
    ∃ p, findAux entries cap (fun e => valuesEqual e.key src.key)
        (hashValue σ src.key % cap) cap none = some p ∧
      (bucketAt entries p).key.isNil = true ∧ p < cap ∧
      MBound (entries.set p src) cap M (hashValue σ src.key) p ∧
      nonEmptyCount (entries.set p src) ≤ nonEmptyCount entries + 1 := by
  have hs : hashValue σ src.key % cap < cap := Nat.mod_lt _ hcap
  obtain ⟨e, he, hee⟩ := exists_empty_bucket entries (by rw [hlen]; exact hne)
  rw [hlen] at he
  obtain ⟨j0, hj0, hpj0⟩ := probeAt_surj (hashValue σ src.key) cap e he
  obtain ⟨p, hfind⟩ := findAux_some_of_empty entries cap
    (fun e => valuesEqual e.key src.key) cap (hashValue σ src.key % cap) none hs
    ⟨j0, hj0, by rw [← hpj0] at hee; exact hee⟩
  rcases findAux_spec entries cap _ cap _ none p hs hfind with
    ⟨j, hj, hpj, hpre, hend⟩ | ⟨t0, ht0, -⟩
  · have hplt : p < cap := by
      rw [hpj]
      exact Nat.mod_lt _ hcap
    have hnil : (bucketAt entries p).key.isNil = true := by
      rcases hend with h | ⟨hact, hM⟩
      · exact h
      · exfalso
        have := hfreeEq p hplt (by rw [activeAt]; exact hact)
        rw [this] at hM
        cases hM
    refine ⟨p, hfind, hnil, hplt, ?_, nonEmptyCount_set_le entries p src (by omega)⟩
    have hset : bucketAt (entries.set p src) p = src := by
      rw [bucketAt, getD_set_self entries p src Entry.empty (by omega)]
    refine ⟨hplt, by rw [hset]; exact hkey, by rw [hset]; exact hMsrc, ?_, ?_⟩
    · refine ⟨j, by omega, hpj, ?_⟩
      intro i hi
      have hiNe : probeAt (hashValue σ src.key) cap i ≠ p := by
        rw [hpj]
        intro hcontra
        have := probeAt_inj (hashValue σ src.key) cap (by omega : i < cap) (by omega : j < cap) hcontra
        omega
      rw [bucketAt, getD_set_ne entries p _ src Entry.empty (fun hh => hiNe hh.symm), ← bucketAt]
      exact (hpre i hi).1
    · intro q hq hqp hact
      have hbq : bucketAt (entries.set p src) q = bucketAt entries q := by
        rw [bucketAt, getD_set_ne entries p q src Entry.empty (fun hh => hqp hh.symm), ← bucketAt]
      rw [hbq]
      rw [activeAt, hbq] at hact
      exact hfreeM q hq hact
  · cases ht0
/-! further preservation steps -/

theorem findAux_some_of_room (entries : List Entry) (cap : Nat) (M' : Entry → Bool)
    (hcap : 0 < cap) (hlen : entries.length = cap) (hne : nonEmptyCount entries < cap)
    (start : Nat) (tomb : Option Nat) (hs : start < cap) :
    ∃ p, findAux entries cap M' start cap tomb = some p := by
  obtain ⟨e, he, hee⟩ := exists_empty_bucket entries (by rw [hlen]; exact hne)
  rw [hlen] at he
  obtain ⟨j0, hj0, hpj0⟩ := probeAt_surj start cap e he
  apply findAux_some_of_empty entries cap M' cap start tomb hs
  refine ⟨j0, hj0, ?_⟩
  have : (start + j0) % cap = probeAt start cap j0 := by
    rw [probeAt, Nat.mod_add_mod]
  rw [this, hpj0]
  exact hee

theorem set_preserves_MBound (entries : List Entry) (cap : Nat) (M : Entry → Bool)
    (hstart p q : Nat) (e' : Entry)
    (hlen : entries.length = cap) (hqlt : q < cap)
    (hb : MBound entries cap M hstart p)
    (hq : q ≠ p)
    (hact' : e'.key.isNil = false)
    (hM' : M e' = false) :
    MBound (entries.set q e') cap M hstart p ∧
    bucketAt (entries.set q e') p = bucketAt entries p := by
  obtain ⟨hp, hact, hM, ⟨j, hj, hpj, hpre⟩, huniq⟩ := hb
  have hbp : bucketAt (entries.set q e') p = bucketAt entries p := by
    rw [bucketAt, getD_set_ne entries q p e' Entry.empty hq, ← bucketAt]
  refine ⟨⟨hp, by rw [hbp]; exact hact, by rw [hbp]; exact hM, ⟨j, hj, hpj, ?_⟩, ?_⟩, hbp⟩
  · intro i hi
    by_cases hiq : probeAt hstart cap i = q
    · rw [bucketAt, hiq, getD_set_self entries q e' Entry.empty (by omega)]
      rw [Entry.isEmptyBucket, hact', Bool.false_and]
    · rw [bucketAt, getD_set_ne entries q _ e' Entry.empty (fun hh => hiq hh.symm), ← bucketAt]
      exact hpre i hi
  · intro q' hq' hq'p hactq'
    by_cases hq'q : q' = q
    · subst hq'q
      rw [bucketAt, getD_set_self entries q' e' Entry.empty (by omega)]
      exact hM'
    · have hbq : bucketAt (entries.set q e') q' = bucketAt entries q' := by
        rw [bucketAt, getD_set_ne entries q q' e' Entry.empty (fun hh => hq'q hh.symm), ← bucketAt]
      rw [hbq]
      rw [activeAt, hbq] at hactq'
      exact huniq q' hq' hq'p hactq'
theorem overwrite_preserves_MBound (entries : List Entry) (cap : Nat) (M : Entry → Bool)
    (hstart p : Nat) (e' : Entry)
    (hlen : entries.length = cap)
    (hb : MBound entries cap M hstart p)
    (hact' : e'.key.isNil = false)
    (hM' : M e' = true) :
    MBound (entries.set p e') cap M hstart p := by
  obtain ⟨hp, hact, hM, ⟨j, hj, hpj, hpre⟩, huniq⟩ := hb
  have hbp : bucketAt (entries.set p e') p = e' := by
    rw [bucketAt, getD_set_self entries p e' Entry.empty (by omega)]
  refine ⟨hp, by rw [hbp]; exact hact', by rw [hbp]; exact hM', ⟨j, hj, hpj, ?_⟩, ?_⟩
  · intro i hi
    have hiNe : probeAt hstart cap i ≠ p := by
      rw [hpj]
      intro hcontra
      have := probeAt_inj hstart cap (by omega : i < cap) (by omega : j < cap) hcontra
      omega
    rw [bucketAt, getD_set_ne entries p _ e' Entry.empty (fun hh => hiNe hh.symm), ← bucketAt]
    exact hpre i hi
  · intro q' hq' hq'p hactq'
    have hbq : bucketAt (entries.set p e') q' = bucketAt entries q' := by
      rw [bucketAt, getD_set_ne entries p q' e' Entry.empty (fun hh => hq'p hh.symm), ← bucketAt]
    rw [hbq]
    rw [activeAt, hbq] at hactq'
    exact huniq q' hq' hq'p hactq'

/-! the rebuild loop of adjust_capacity -/

theorem rehash_fold_free (σ : Store) (cap : Nat) (M : Entry → Bool) (rem : List Entry) :
    ∀ (acc : List Entry),
    0 < cap → acc.length = cap →
    nonEmptyCount acc + activeCount rem < cap →
    (∀ q, q < cap → activeAt acc q → M (bucketAt acc q) = false) →
    (∀ e ∈ rem, e.key.isNil = false → M e = false) →
    (rem.foldl (fun acc src => if src.key.isNil = true then acc
        else insertRebuild σ acc cap src) acc).length = cap ∧
    nonEmptyCount (rem.foldl (fun acc src => if src.key.isNil = true then acc
        else insertRebuild σ acc cap src) acc) ≤ nonEmptyCount acc + activeCount rem ∧
    (∀ q, q < cap →
      activeAt (rem.foldl (fun acc src => if src.key.isNil = true then acc
        else insertRebuild σ acc cap src) acc) q →
      M (bucketAt (rem.foldl (fun acc src => if src.key.isNil = true then acc
        else insertRebuild σ acc cap src) acc) q) = false) := by
  induction rem with
  | nil =>
    intro acc hcap hlen hbudget haccM hremM
    simp only [List.foldl_nil]
    exact ⟨hlen, by rw [activeCount, List.countP_nil]; omega, haccM⟩
  | cons src rem' ih =>
    intro acc hcap hlen hbudget haccM hremM
    rw [List.foldl_cons]
    by_cases hnil : src.key.isNil = true
    · rw [if_pos hnil]
      have hact' : activeCount (src :: rem') = activeCount rem' := by
        rw [activeCount, List.countP_cons_of_neg _ _ (by simp [hnil])]
        rfl
      rw [hact'] at hbudget
      obtain ⟨h1, h2, h3⟩ := ih acc hcap hlen hbudget haccM
        (fun e he hk => hremM e (List.mem_cons_of_mem src he) hk)
      exact ⟨h1, by omega, h3⟩
    · rw [if_neg hnil]
      have hkey : src.key.isNil = false := by
        rw [Bool.not_eq_true] at hnil
        exact hnil
      have hactCons : activeCount (src :: rem') = activeCount rem' + 1 := by
        rw [activeCount, List.countP_cons_of_pos _ _ (by simp [hkey])]
        rfl
      rw [hactCons] at hbudget
      have hne : nonEmptyCount acc < cap := by omega
      obtain ⟨p, hfind⟩ := findAux_some_of_room acc cap
        (fun e => valuesEqual e.key src.key) hcap hlen hne
        (hashValue σ src.key % cap) none (Nat.mod_lt _ hcap)
      have hinsert : insertRebuild σ acc cap src = acc.set p src := by
        rw [insertRebuild, hfind]
      rw [hinsert]
      have hplt : p < cap := by
        rcases findAux_spec acc cap _ cap _ none p (Nat.mod_lt _ hcap) hfind with
          ⟨j, hj, hpj, -, -⟩ | ⟨t0, ht0, -⟩
        · rw [hpj]; exact Nat.mod_lt _ hcap
        · cases ht0
      have hlen' : (acc.set p src).length = cap := by rw [List.length_set]; exact hlen
      have hnec : nonEmptyCount (acc.set p src) ≤ nonEmptyCount acc + 1 :=
        nonEmptyCount_set_le acc p src (by omega)
      have haccM' : ∀ q, q < cap → activeAt (acc.set p src) q →
          M (bucketAt (acc.set p src) q) = false := by
        intro q hq hact
        by_cases hqp : q = p
        · subst hqp
          rw [bucketAt, getD_set_self acc q src Entry.empty (by omega)]
          exact hremM src (List.mem_cons_self src rem') hkey
        · have hbq : bucketAt (acc.set p src) q = bucketAt acc q := by
            rw [bucketAt, getD_set_ne acc p q src Entry.empty (fun hh => hqp hh.symm), ← bucketAt]
          rw [hbq]
          rw [activeAt, hbq] at hact
          exact haccM q hq hact
      obtain ⟨h1, h2, h3⟩ := ih (acc.set p src) hcap hlen' (by omega) haccM'
        (fun e he hk => hremM e (List.mem_cons_of_mem src he) hk)
      exact ⟨h1, by omega, h3⟩
theorem rehash_fold_bound (σ : Store) (cap : Nat) (M : Entry → Bool) (hstart : Nat)
    (kstar : Value) (rem : List Entry) :
    ∀ (acc : List Entry) (p : Nat),
    0 < cap → acc.length = cap →
    nonEmptyCount acc + activeCount rem < cap →
    MBound acc cap M hstart p →
    (bucketAt acc p).key = kstar →
    (∀ e ∈ rem, e.key.isNil = false →
      M e = false ∧ valuesEqual kstar e.key = false) →
    (rem.foldl (fun acc src => if src.key.isNil = true then acc
        else insertRebuild σ acc cap src) acc).length = cap ∧
    nonEmptyCount (rem.foldl (fun acc src => if src.key.isNil = true then acc
        else insertRebuild σ acc cap src) acc) ≤ nonEmptyCount acc + activeCount rem ∧
    MBound (rem.foldl (fun acc src => if src.key.isNil = true then acc
        else insertRebuild σ acc cap src) acc) cap M hstart p ∧
    bucketAt (rem.foldl (fun acc src => if src.key.isNil = true then acc
        else insertRebuild σ acc cap src) acc) p = bucketAt acc p := by
  induction rem with
  | nil =>
    intro acc p hcap hlen hbudget hb hk hrem
    simp only [List.foldl_nil]
    exact ⟨hlen, by rw [activeCount, List.countP_nil]; omega, hb, trivial⟩
  | cons src rem' ih =>
    intro acc p hcap hlen hbudget hb hk hrem
    rw [List.foldl_cons]
    by_cases hnil : src.key.isNil = true
    · rw [if_pos hnil]
      have hact' : activeCount (src :: rem') = activeCount rem' := by
        rw [activeCount, List.countP_cons_of_neg _ _ (by simp [hnil])]
        rfl
      rw [hact'] at hbudget
      obtain ⟨h1, h2, h3, h4⟩ := ih acc p hcap hlen hbudget hb hk
        (fun e he hkk => hrem e (List.mem_cons_of_mem src he) hkk)
      exact ⟨h1, by omega, h3, h4⟩
    · rw [if_neg hnil]
      have hkey : src.key.isNil = false := by
        rw [Bool.not_eq_true] at hnil
        exact hnil
      obtain ⟨hMsrc, hEqsrc⟩ := hrem src (List.mem_cons_self src rem') hkey
      have hactCons : activeCount (src :: rem') = activeCount rem' + 1 := by
        rw [activeCount, List.countP_cons_of_pos _ _ (by simp [hkey])]
        rfl
      rw [hactCons] at hbudget
      have hne : nonEmptyCount acc < cap := by omega
      obtain ⟨q, hfind⟩ := findAux_some_of_room acc cap
        (fun e => valuesEqual e.key src.key) hcap hlen hne
        (hashValue σ src.key % cap) none (Nat.mod_lt _ hcap)
      have hinsert : insertRebuild σ acc cap src = acc.set q src := by
        rw [insertRebuild, hfind]
      rw [hinsert]
      have hqlt : q < cap := by
        rcases findAux_spec acc cap _ cap _ none q (Nat.mod_lt _ hcap) hfind with
          ⟨j, hj, hpj, -, -⟩ | ⟨t0, ht0, -⟩
        · rw [hpj]; exact Nat.mod_lt _ hcap
        · cases ht0
      have hqp : q ≠ p := by
        rcases findAux_spec acc cap _ cap _ none q (Nat.mod_lt _ hcap) hfind with
          ⟨j, hj, hpj, hpre, hend⟩ | ⟨t0, ht0, -⟩
        · rcases hend with hqnil | ⟨hqact, hqM⟩
          · intro hcontra
            subst hcontra
            have hpact := hb.2.1
            rw [hqnil] at hpact
            cases hpact
          · intro hcontra
            subst hcontra
            rw [hk] at hqM
            rw [hEqsrc] at hqM
            cases hqM
        · cases ht0
      obtain ⟨hb', hbp'⟩ := set_preserves_MBound acc cap M hstart p q src hlen hqlt hb hqp
        hkey hMsrc
      have hlen' : (acc.set q src).length = cap := by rw [List.length_set]; exact hlen
      have hnec := nonEmptyCount_set_le acc q src (by omega)
      have hk' : (bucketAt (acc.set q src) p).key = kstar := by rw [hbp', hk]
      obtain ⟨h1, h2, h3, h4⟩ := ih (acc.set q src) p hcap hlen' (by omega) hb' hk'
        (fun e he hkk => hrem e (List.mem_cons_of_mem src he) hkk)
      refine ⟨h1, by omega, h3, ?_⟩
      rw [h4, hbp']
/-! positional membership of take/drop, fresh bucket arrays -/

theorem mem_take_pos (l : List Entry) (n : Nat) (e : Entry) (he : e ∈ l.take n) :
    ∃ i, i < n ∧ i < l.length ∧ l[i]? = some e := by
  obtain ⟨i, hi, hget⟩ := List.mem_iff_getElem.mp he
  have hlt : i < n := by
    have := hi
    rw [List.length_take] at this
    omega
  have hlen : i < l.length := by
    have := hi
    rw [List.length_take] at this
    omega
  refine ⟨i, hlt, hlen, ?_⟩
  rw [List.getElem?_eq_getElem hlen]
  rw [← hget, List.getElem_take]

theorem mem_drop_pos (l : List Entry) (n : Nat) (e : Entry) (he : e ∈ l.drop n) :
    ∃ i, n ≤ i ∧ i < l.length ∧ l[i]? = some e := by
  obtain ⟨i, hi, hget⟩ := List.mem_iff_getElem.mp he
  have hlen : n + i < l.length := by
    have := hi
    rw [List.length_drop] at this
    omega
  refine ⟨n + i, by omega, hlen, ?_⟩
  rw [List.getElem?_eq_getElem hlen]
  rw [← hget, List.getElem_drop]

theorem nonEmptyCount_replicate (n : Nat) :
    nonEmptyCount (List.replicate n Entry.empty) = 0 := by
  rw [nonEmptyCount, List.countP_eq_zero]
  intro e he
  rw [List.eq_of_mem_replicate he]
  decide

theorem activeAt_replicate_false (n q : Nat) :
    activeAt (List.replicate n Entry.empty) q → False := by
  rw [activeAt, bucketAt]
  intro h
  by_cases hq : q < n
  · rw [List.getD_eq_getElem?_getD, List.getElem?_eq_getElem (by simpa using hq),
      List.getElem_replicate] at h
    cases h
  · rw [List.getD_eq_getElem?_getD, List.getElem?_eq_none (by simpa using hq)] at h
    cases h

theorem activeCount_decomp (l : List Entry) (p0 : Nat) (h : p0 < l.length) :
    activeCount l = activeCount (l.take p0) +
      ((if !(l[p0]).key.isNil then 1 else 0) + activeCount (l.drop (p0 + 1))) := by
  conv_lhs => rw [← List.take_append_drop p0 l]
  rw [activeCount, List.countP_append]
  congr 1
  rw [List.drop_eq_getElem_cons h, List.countP_cons]
  rw [activeCount]
  omega
/-! adjust_capacity: structure, freeness, and binding preservation -/

theorem bucketAt_of_getElem? (l : List Entry) (i : Nat) (e : Entry)
    (h : l[i]? = some e) : bucketAt l i = e := by
  rw [bucketAt, List.getD_eq_getElem?_getD, h, Option.getD_some]

theorem adjustCapacity_free (σ : Store) (t : Table) (newCap : Nat) (M : Entry → Bool)
    (hcap : 0 < newCap)
    (hbudget : activeCount t.entries < newCap)
    (hrem : ∀ e ∈ t.entries, e.key.isNil = false → M e = false) :
    (adjustCapacity σ t newCap).capacity = newCap ∧
    (adjustCapacity σ t newCap).entries.length = newCap ∧
    (adjustCapacity σ t newCap).count = activeCount t.entries ∧
    nonEmptyCount (adjustCapacity σ t newCap).entries ≤ activeCount t.entries ∧
    ∀ q, q < newCap → activeAt (adjustCapacity σ t newCap).entries q →
      M (bucketAt (adjustCapacity σ t newCap).entries q) = false := by
  have hent : (adjustCapacity σ t newCap).entries = t.entries.foldl
      (fun acc src => if src.key.isNil = true then acc else insertRebuild σ acc newCap src)
      (List.replicate newCap Entry.empty) := rfl
  have hfold := rehash_fold_free σ newCap M t.entries
    (List.replicate newCap Entry.empty) hcap (by simp)
    (by rw [nonEmptyCount_replicate]; omega)
    (fun q hq ha => (activeAt_replicate_false newCap q ha).elim)
    hrem
  rw [nonEmptyCount_replicate] at hfold
  refine ⟨rfl, ?_, rfl, ?_, ?_⟩
  · rw [hent]; exact hfold.1
  · rw [hent]; omega
  · rw [hent]; exact hfold.2.2
theorem adjustCapacity_bound (σ : Store) (t : Table) (newCap : Nat) (M : Entry → Bool)
    (p0 : Nat)
    (hlen : t.entries.length = t.capacity)
    (hcap : 0 < newCap)
    (hbudget : activeCount t.entries < newCap)
    (hp0lt : p0 < t.capacity)
    (hp0act : (bucketAt t.entries p0).key.isNil = false)
    (hMp0 : M (bucketAt t.entries p0) = true)
    (huniq : ∀ q, q < t.capacity → q ≠ p0 → activeAt t.entries q →
      M (bucketAt t.entries q) = false)
    (hNoEq : ∀ q, q < t.capacity → q ≠ p0 → activeAt t.entries q →
      valuesEqual (bucketAt t.entries q).key (bucketAt t.entries p0).key = false) :
    ∃ p', MBound (adjustCapacity σ t newCap).entries newCap M
        (hashValue σ (bucketAt t.entries p0).key) p' ∧
      bucketAt (adjustCapacity σ t newCap).entries p' = bucketAt t.entries p0 ∧
      (adjustCapacity σ t newCap).capacity = newCap ∧
      (adjustCapacity σ t newCap).entries.length = newCap ∧
      (adjustCapacity σ t newCap).count = activeCount t.entries ∧
      nonEmptyCount (adjustCapacity σ t newCap).entries ≤ activeCount t.entries := by
  have hp0len : p0 < t.entries.length := by omega
  have hestar := bucketAt_eq_getElem t.entries p0 hp0len
  have hcnt := activeCount_decomp t.entries p0 hp0len
  have hact1 : (if !(t.entries[p0]).key.isNil then 1 else 0) = 1 := by
    rw [← hestar, hp0act]
    rfl
  rw [hact1] at hcnt
  have hdecomp : t.entries = t.entries.take p0 ++
      bucketAt t.entries p0 :: t.entries.drop (p0 + 1) := by
    conv_lhs => rw [← List.take_append_drop p0 t.entries]
    congr 1
    rw [hestar]
    exact List.drop_eq_getElem_cons hp0len
  have htake : ∀ e ∈ t.entries.take p0, e.key.isNil = false →
      (fun e => M e || valuesEqual e.key (bucketAt t.entries p0).key) e = false := by
    intro e he hk
    obtain ⟨i, hip0, hilen, hie⟩ := mem_take_pos _ _ _ he
    have hbe : bucketAt t.entries i = e := bucketAt_of_getElem? _ _ _ hie
    have hiact : activeAt t.entries i := by rw [activeAt, hbe]; exact hk
    have h1 := huniq i (by omega) (by omega) hiact
    have h2 := hNoEq i (by omega) (by omega) hiact
    rw [hbe] at h1 h2
    simp [h1, h2]
  have hfold1 := rehash_fold_free σ newCap
    (fun e => M e || valuesEqual e.key (bucketAt t.entries p0).key)
    (t.entries.take p0) (List.replicate newCap Entry.empty) hcap (by simp)
    (by rw [nonEmptyCount_replicate]; omega)
    (fun q hq ha => (activeAt_replicate_false newCap q ha).elim)
    htake
  rw [nonEmptyCount_replicate] at hfold1
  set acc1 := (t.entries.take p0).foldl
    (fun acc src => if src.key.isNil = true then acc else insertRebuild σ acc newCap src)
    (List.replicate newCap Entry.empty) with hacc1
  obtain ⟨hlen1, hnec1, hfree1⟩ := hfold1
  have hneacc1 : nonEmptyCount acc1 < newCap := by omega
  obtain ⟨p', hfind, hnil, hp'lt, hbound2, hnec2⟩ :=
    insert_creates_MBound σ acc1 newCap (bucketAt t.entries p0) M hcap hlen1 hneacc1
      hp0act hMp0
      (fun q hq ha => by
        have := hfree1 q hq ha
        simp only [Bool.or_eq_false_iff] at this
        exact this.2)
      (fun q hq ha => by
        have := hfree1 q hq ha
        simp only [Bool.or_eq_false_iff] at this
        exact this.1)
  have hp'len : p' < acc1.length := by omega
  have hbset : bucketAt (acc1.set p' (bucketAt t.entries p0)) p' = bucketAt t.entries p0 := by
    rw [bucketAt]
    exact getD_set_self acc1 p' _ _ hp'len
  have hdrop : ∀ e ∈ t.entries.drop (p0 + 1), e.key.isNil = false →
      M e = false ∧ valuesEqual (bucketAt t.entries p0).key e.key = false := by
    intro e he hk
    obtain ⟨i, hip0, hilen, hie⟩ := mem_drop_pos _ _ _ he
    have hbe : bucketAt t.entries i = e := bucketAt_of_getElem? _ _ _ hie
    have hiact : activeAt t.entries i := by rw [activeAt, hbe]; exact hk
    have h1 := huniq i (by omega) (by omega) hiact
    have h2 := hNoEq i (by omega) (by omega) hiact
    rw [hbe] at h1 h2
    exact ⟨h1, by rw [valuesEqual_symm]; exact h2⟩
  have hnecset := nonEmptyCount_set_le acc1 p' (bucketAt t.entries p0) hp'len
  have hfold3 := rehash_fold_bound σ newCap M (hashValue σ (bucketAt t.entries p0).key)
    (bucketAt t.entries p0).key (t.entries.drop (p0 + 1))
    (acc1.set p' (bucketAt t.entries p0)) p' hcap
    (by rw [List.length_set]; exact hlen1)
    (by omega)
    hbound2
    (by rw [hbset])
    hdrop
  have hfoldeq : (adjustCapacity σ t newCap).entries =
      (t.entries.drop (p0 + 1)).foldl
        (fun acc src => if src.key.isNil = true then acc else insertRebuild σ acc newCap src)
        (acc1.set p' (bucketAt t.entries p0)) := by
    have hh : (adjustCapacity σ t newCap).entries = t.entries.foldl
        (fun acc src => if src.key.isNil = true then acc else insertRebuild σ acc newCap src)
        (List.replicate newCap Entry.empty) := rfl
    rw [hh]
    conv_lhs => rw [hdecomp]
    rw [List.foldl_append, List.foldl_cons, ← hacc1]
    have hstep : (if (bucketAt t.entries p0).key.isNil = true then acc1
        else insertRebuild σ acc1 newCap (bucketAt t.entries p0)) =
        acc1.set p' (bucketAt t.entries p0) := by
      rw [if_neg (by rw [hp0act]; exact fun h => Bool.noConfusion h)]
      rw [insertRebuild, hfind]
    rw [hstep]
  obtain ⟨hlen3, hnec3, hbound3, hbuck3⟩ := hfold3
  refine ⟨p', ?_, ?_, rfl, ?_, rfl, ?_⟩
  · rw [hfoldeq]; exact hbound3
  · rw [hfoldeq, hbuck3, hbset]
  · rw [hfoldeq]; exact hlen3
  · rw [hfoldeq]; omega
/-! table_set building blocks: growth arithmetic, findEntry characterization,
fresh insertion at the probed bucket -/

theorem grow_arith (t : Table) (hinv : TableInv t)
    (hgrow : 3 * t.capacity < 4 * (t.count + 1)) :
    activeCount t.entries < GROW_CAPACITY t.capacity ∧
    0 < GROW_CAPACITY t.capacity ∧
    4 * (activeCount t.entries + 1) ≤ 3 * GROW_CAPACITY t.capacity := by
  have h1 := activeCount_le_nonEmptyCount t.entries
  have h2 := hinv.ne_le
  have h3 := hinv.load
  rw [GROW_CAPACITY]
  split_ifs <;> omega

theorem findEntry_characterize (σ : Store) (t : Table) (k : Value) (p : Nat)
    (hfind : findEntry σ t k = some p) :
    p < t.capacity ∧ ((bucketAt t.entries p).key.isNil = true ∨
      ((bucketAt t.entries p).key.isNil = false ∧
        valuesEqual (bucketAt t.entries p).key k = true)) := by
  rcases Nat.eq_zero_or_pos t.capacity with hcap | hcap
  · rw [findEntry, hcap] at hfind
    cases hfind
  · have hs : hashValue σ k % t.capacity < t.capacity := Nat.mod_lt _ hcap
    have hspec := findAux_spec t.entries t.capacity (fun e => valuesEqual e.key k)
      t.capacity (hashValue σ k % t.capacity) none p hs hfind
    rcases hspec with ⟨j, hj, hpj, hpre, hat⟩ | ⟨t0, ht0, _⟩
    · exact ⟨by rw [hpj]; exact Nat.mod_lt _ hcap, hat⟩
    · cases ht0

theorem keyFree_elementwise (t : Table) (k : Value) (hlen : t.entries.length = t.capacity)
    (hfree : KeyFree t k) :
    ∀ e ∈ t.entries, e.key.isNil = false →
      (fun e => valuesEqual e.key k) e = false := by
  intro e he hk
  obtain ⟨i, hi, hie⟩ := List.mem_iff_getElem.mp he
  have hbe : bucketAt t.entries i = e := by
    rw [bucketAt_eq_getElem _ _ hi, hie]
  have := hfree i (by omega) (by rw [activeAt, hbe]; exact hk)
  rwa [hbe] at this

theorem set_at_probe_creates_MBound (σ : Store) (entries : List Entry) (cap : Nat)
    (k v : Value) (p : Nat)
    (hlen : entries.length = cap) (hcap : 0 < cap)
    (hfind : findAux entries cap (fun e => valuesEqual e.key k)
      (hashValue σ k % cap) cap none = some p)
    (hk : k.isNil = false) (hrefl : valuesEqual k k = true)
    (hfree : ∀ q, q < cap → activeAt entries q →
      valuesEqual (bucketAt entries q).key k = false) :
    p < cap ∧ MBound (entries.set p ⟨k, v⟩) cap (fun e => valuesEqual e.key k)
      (hashValue σ k) p := by
  have hs : hashValue σ k % cap < cap := Nat.mod_lt _ hcap
  have hspec := findAux_spec entries cap (fun e => valuesEqual e.key k)
    cap (hashValue σ k % cap) none p hs hfind
  rcases hspec with ⟨j, hj, hpj, hpre, hat⟩ | ⟨t0, ht0, _⟩
  · have hplt : p < cap := by rw [hpj]; exact Nat.mod_lt _ hcap
    have hbp : bucketAt (entries.set p ⟨k, v⟩) p = ⟨k, v⟩ := by
      rw [bucketAt, getD_set_self entries p _ _ (by omega)]
    refine ⟨hplt, hplt, by rw [hbp]; exact hk, by rw [hbp]; exact hrefl,
      ⟨j, by omega, ?_, ?_⟩, ?_⟩
    · rw [probeAt]
      exact hpj
    · intro i hi
      have hip : probeAt (hashValue σ k) cap i ≠ p := by
        intro hcontra
        have hji : i = j := by
          apply probeAt_inj (hashValue σ k) cap (by omega) (by omega)
          rw [hcontra, probeAt, ← hpj]
        omega
      have hbq : bucketAt (entries.set p ⟨k, v⟩) (probeAt (hashValue σ k) cap i) =
          bucketAt entries (probeAt (hashValue σ k) cap i) := by
        rw [bucketAt, getD_set_ne entries p _ _ _ (fun h => hip h.symm), ← bucketAt]
      rw [hbq, probeAt]
      exact (hpre i hi).1
    · intro q hq hqp hact
      have hbq : bucketAt (entries.set p ⟨k, v⟩) q = bucketAt entries q := by
        rw [bucketAt, getD_set_ne entries p q _ _ (fun h => hqp h.symm), ← bucketAt]
      rw [hbq]
      rw [activeAt, hbq] at hact
      exact hfree q hq hact
  · cases ht0
theorem tableSet_eq (σ : Store) (t : Table) (key value : Value) :
    tableSet σ t key value =
      if key.isNil then (t, false) else writeBack σ (growIfNeeded σ t) key value := rfl

theorem writeBack_TableInv (σ : Store) (t1 : Table) (k v : Value)
    (hk : k.isNil = false)
    (hlen : t1.entries.length = t1.capacity)
    (hne : nonEmptyCount t1.entries ≤ t1.count)
    (hload : 4 * (t1.count + 1) ≤ 3 * t1.capacity) :
    TableInv (writeBack σ t1 k v).1 := by
  rcases hE : findEntry σ t1 k with _ | i
  · simp only [writeBack, hE]
    exact ⟨hlen, hne, by omega⟩
  · obtain ⟨hilt, hcases⟩ := findEntry_characterize σ t1 k i hE
    have hilen : i < t1.entries.length := by omega
    simp only [writeBack, hE]
    refine ⟨by simp [List.length_set, hlen], ?_, ?_⟩
    · by_cases hcond : ((t1.entries.getD i Entry.empty).key.isNil &&
          !((t1.entries.getD i Entry.empty).key.isNil &&
            ((t1.entries.getD i Entry.empty).value == Value.bool true))) = true
      · have hle := nonEmptyCount_set_le t1.entries i ⟨k, v⟩ hilen
        rw [if_pos hcond]
        show nonEmptyCount (t1.entries.set i ⟨k, v⟩) ≤ t1.count + 1
        omega
      · rw [if_neg hcond]
        show nonEmptyCount (t1.entries.set i ⟨k, v⟩) ≤ t1.count
        have hOldNE : (t1.entries.getD i Entry.empty).isEmptyBucket = false := by
          rw [Entry.isEmptyBucket]
          by_cases hn : (t1.entries.getD i Entry.empty).key.isNil = true
          · have hv : ((t1.entries.getD i Entry.empty).value == Value.bool true) = true := by
              by_contra hv
              rw [Bool.not_eq_true] at hv
              exact hcond (by rw [hn, hv]; rfl)
            rw [eq_of_beq hv, hn]
            rfl
          · rw [Bool.not_eq_true] at hn
            rw [hn, Bool.false_and]
        rw [nonEmptyCount_set_eq_of t1.entries i ⟨k, v⟩ hilen
          (by rw [bucketAt]; exact hOldNE)
          (by rw [Entry.isEmptyBucket]; show (k.isNil && v.isNil) = false;
              rw [hk, Bool.false_and])]
        exact hne
    · dsimp only
      split_ifs <;> omega
theorem writeBack_keyFree (σ : Store) (t1 : Table) (k v : Value)
    (hlen : t1.entries.length = t1.capacity) (hcap : 0 < t1.capacity)
    (hne : nonEmptyCount t1.entries < t1.capacity)
    (hk : k.isNil = false) (hrefl : valuesEqual k k = true)
    (hfree : KeyFree t1 k) :
    (writeBack σ t1 k v).2 = true ∧ KeyBound σ (writeBack σ t1 k v).1 k v := by
  obtain ⟨p, hfind0⟩ := findAux_some_of_room t1.entries t1.capacity
    (fun e => valuesEqual e.key k) hcap hlen hne
    (hashValue σ k % t1.capacity) none (Nat.mod_lt _ hcap)
  have hfind : findEntry σ t1 k = some p := hfind0
  obtain ⟨hplt, hcases⟩ := findEntry_characterize σ t1 k p hfind
  have hnil : (bucketAt t1.entries p).key.isNil = true := by
    rcases hcases with h | ⟨hact, hmatch⟩
    · exact h
    · rw [hfree p hplt hact] at hmatch
      cases hmatch
  obtain ⟨_, hMB⟩ := set_at_probe_creates_MBound σ t1.entries t1.capacity k v p
    hlen hcap hfind0 hk hrefl hfree
  simp only [writeBack, hfind]
  refine ⟨?_, ?_⟩
  · rw [bucketAt] at hnil
    exact hnil
  · refine ⟨p, hMB, ?_⟩
    show bucketAt (t1.entries.set p ⟨k, v⟩) p = _
    rw [bucketAt, getD_set_self t1.entries p _ _ (by omega)]

theorem writeBack_keyBound (σ : Store) (t1 : Table) (k v v0 : Value)
    (hlen : t1.entries.length = t1.capacity)
    (hb : KeyBound σ t1 k v0) :
    (writeBack σ t1 k v).2 = false ∧ KeyBound σ (writeBack σ t1 k v).1 k v ∧
    (writeBack σ t1 k v).1.count = t1.count := by
  have hcap : 0 < t1.capacity := by
    obtain ⟨p0, hMB0, _⟩ := hb
    have := hMB0.1
    omega
  obtain ⟨p, hfindE, hpe, hMB⟩ := findEntry_of_keyBound σ t1 k v0 hcap hb
  have hk : k.isNil = false := by
    have := hMB.2.1
    rwa [hpe] at this
  have hM : valuesEqual k k = true := by
    have := hMB.2.2.1
    rwa [hpe] at this
  rw [bucketAt] at hpe
  simp only [writeBack, hfindE]
  refine ⟨?_, ?_, ?_⟩
  · rw [hpe]
    exact hk
  · have hov := overwrite_preserves_MBound t1.entries t1.capacity
      (fun e => valuesEqual e.key k) (hashValue σ k) p ⟨k, v⟩ hlen hMB hk hM
    refine ⟨p, hov, ?_⟩
    show bucketAt (t1.entries.set p ⟨k, v⟩) p = _
    rw [bucketAt, getD_set_self t1.entries p _ _ (by rw [hlen]; exact hMB.1)]
  · dsimp only
    rw [hpe]
    rw [if_neg (by rw [hk]; exact fun h => Bool.noConfusion (Bool.false_and _ ▸ h))]
theorem writeBack_frame (σ : Store) (t1 : Table) (kF vF k' v' : Value)
    (hlen : t1.entries.length = t1.capacity)
    (hk' : k'.isNil = false)
    (hb : KeyBound σ t1 kF vF)
    (hne : valuesEqual k' kF = false) :
    KeyBound σ (writeBack σ t1 k' v').1 kF vF := by
  rcases hE : findEntry σ t1 k' with _ | i
  · simp only [writeBack, hE]
    exact hb
  · obtain ⟨hilt, hcases⟩ := findEntry_characterize σ t1 k' i hE
    obtain ⟨p, hMB, hpe⟩ := hb
    have hip : i ≠ p := by
      intro hcontra
      subst hcontra
      rcases hcases with hn | ⟨hact, hm⟩
      · have hkact := hMB.2.1
        rw [hkact] at hn
        cases hn
      · rw [hpe] at hm
        have hsym := valuesEqual_symm k' kF
        rw [hne, hm] at hsym
        cases hsym
    have hMe' : valuesEqual (⟨k', v'⟩ : Entry).key kF = false := hne
    obtain ⟨hMB', hpe'⟩ := set_preserves_MBound t1.entries t1.capacity
      (fun e => valuesEqual e.key kF) (hashValue σ kF) p i ⟨k', v'⟩
      hlen hilt hMB hip hk' hMe'
    simp only [writeBack, hE]
    exact ⟨p, hMB', by rw [hpe', hpe]⟩

/-! growth step preserves the invariant, freeness and bindings -/

theorem growIfNeeded_inv (σ : Store) (t : Table) (hinv : TableInv t) :
    (growIfNeeded σ t).entries.length = (growIfNeeded σ t).capacity ∧
    nonEmptyCount (growIfNeeded σ t).entries ≤ (growIfNeeded σ t).count ∧
    4 * ((growIfNeeded σ t).count + 1) ≤ 3 * (growIfNeeded σ t).capacity ∧
    0 < (growIfNeeded σ t).capacity ∧
    nonEmptyCount (growIfNeeded σ t).entries < (growIfNeeded σ t).capacity := by
  rw [growIfNeeded]
  split_ifs with hg
  · obtain ⟨hb1, hb2, hb3⟩ := grow_arith t hinv hg
    obtain ⟨hc, hl, hcnt, hnec, _⟩ := adjustCapacity_free σ t (GROW_CAPACITY t.capacity)
      (fun _ => false) hb2 hb1 (fun _ _ _ => rfl)
    refine ⟨by rw [hl, hc], by rw [hcnt]; exact hnec, ?_, by rw [hc]; exact hb2, ?_⟩
    · rw [hcnt, hc]
      omega
    · rw [hc]
      omega
  · have h1 := hinv.ne_le
    have h2 := hinv.load
    exact ⟨hinv.len, h1, by omega, by omega, by omega⟩

theorem growIfNeeded_keyFree (σ : Store) (t : Table) (k : Value) (hinv : TableInv t)
    (hfree : KeyFree t k) : KeyFree (growIfNeeded σ t) k := by
  rw [growIfNeeded]
  split_ifs with hg
  · obtain ⟨hb1, hb2, _⟩ := grow_arith t hinv hg
    obtain ⟨hc, _, _, _, hfr⟩ := adjustCapacity_free σ t (GROW_CAPACITY t.capacity)
      (fun e => valuesEqual e.key k) hb2 hb1 (keyFree_elementwise t k hinv.len hfree)
    intro q hq hact
    exact hfr q (by rw [← hc]; exact hq) hact
  · exact hfree

theorem growIfNeeded_keyBound (σ : Store) (t : Table) (k v : Value) (hinv : TableInv t)
    (hb : KeyBound σ t k v) : KeyBound σ (growIfNeeded σ t) k v := by
  rw [growIfNeeded]
  split_ifs with hg
  · obtain ⟨p0, hMB, hpe⟩ := hb
    obtain ⟨hb1, hb2, _⟩ := grow_arith t hinv hg
    have hNoEq : ∀ q, q < t.capacity → q ≠ p0 → activeAt t.entries q →
        valuesEqual (bucketAt t.entries q).key (bucketAt t.entries p0).key = false := by
      intro q hq hqp ha
      have := hMB.2.2.2.2 q hq hqp ha
      rw [hpe]
      exact this
    obtain ⟨p', hMB', hpe', _⟩ := adjustCapacity_bound σ t (GROW_CAPACITY t.capacity)
      (fun e => valuesEqual e.key k) p0 hinv.len hb2 hb1 hMB.1 hMB.2.1 hMB.2.2.1
      hMB.2.2.2.2 hNoEq
    refine ⟨p', ?_, by rw [hpe', hpe]⟩
    have hcapeq : (adjustCapacity σ t (GROW_CAPACITY t.capacity)).capacity
        = GROW_CAPACITY t.capacity := rfl
    have hkey : (bucketAt t.entries p0).key = k := by rw [hpe]
    rw [hkey] at hMB'
    rw [hcapeq]
    exact hMB'
  · exact hb
/-! the four faces of table_set -/

theorem tableSet_TableInv (σ : Store) (t : Table) (k v : Value) (hinv : TableInv t) :
    TableInv (tableSet σ t k v).1 := by
  rw [tableSet_eq]
  split_ifs with hk
  · exact hinv
  · obtain ⟨hl1, hc1, hload1, _, _⟩ := growIfNeeded_inv σ t hinv
    exact writeBack_TableInv σ _ k v (Bool.not_eq_true _ ▸ hk) hl1 hc1 hload1

theorem tableSet_keyFree (σ : Store) (t : Table) (k v : Value) (hinv : TableInv t)
    (hk : k.isNil = false) (hrefl : valuesEqual k k = true) (hfree : KeyFree t k) :
    (tableSet σ t k v).2 = true ∧ KeyBound σ (tableSet σ t k v).1 k v := by
  rw [tableSet_eq, if_neg (by rw [hk]; exact Bool.false_ne_true)]
  obtain ⟨hl1, _, _, hcap1, hne1⟩ := growIfNeeded_inv σ t hinv
  exact writeBack_keyFree σ (growIfNeeded σ t) k v hl1 hcap1 hne1 hk hrefl
    (growIfNeeded_keyFree σ t k hinv hfree)

theorem tableSet_keyBound (σ : Store) (t : Table) (k v v0 : Value) (hinv : TableInv t)
    (hk : k.isNil = false) (hb : KeyBound σ t k v0) :
    (tableSet σ t k v).2 = false ∧ KeyBound σ (tableSet σ t k v).1 k v := by
  rw [tableSet_eq, if_neg (by rw [hk]; exact Bool.false_ne_true)]
  obtain ⟨hl1, _, _, _, _⟩ := growIfNeeded_inv σ t hinv
  obtain ⟨h1, h2, _⟩ := writeBack_keyBound σ (growIfNeeded σ t) k v v0 hl1
    (growIfNeeded_keyBound σ t k v0 hinv hb)
  exact ⟨h1, h2⟩

theorem tableSet_frame (σ : Store) (t : Table) (kF vF k' v' : Value) (hinv : TableInv t)
    (hb : KeyBound σ t kF vF) :
    valuesEqual k' kF = false → KeyBound σ (tableSet σ t k' v').1 kF vF := by
  intro hne
  rw [tableSet_eq]
  split_ifs with hk'
  · exact hb
  · obtain ⟨hl1, _, _, _, _⟩ := growIfNeeded_inv σ t hinv
    exact writeBack_frame σ (growIfNeeded σ t) kF vF k' v' hl1
      (Bool.not_eq_true _ ▸ hk') (growIfNeeded_keyBound σ t kF vF hinv hb) hne
/-! table_delete on a bound key: tombstone it, leaving the key absent -/

theorem tableDelete_keyBound (σ : Store) (t : Table) (k v : Value) (hinv : TableInv t)
    (hk : k.isNil = false) (hb : KeyBound σ t k v) :
    (tableDelete σ t k).2 = true ∧ KeyFree (tableDelete σ t k).1 k ∧
    TableInv (tableDelete σ t k).1 ∧
    (tableDelete σ t k).1.capacity = t.capacity := by
  have hcap : 0 < t.capacity := by
    obtain ⟨p0, hMB0, _⟩ := hb
    have := hMB0.1
    omega
  obtain ⟨p, hfindE, hpe, hMB⟩ := findEntry_of_keyBound σ t k v hcap hb
  have hplen : p < t.entries.length := by
    rw [hinv.len]
    exact hMB.1
  have hcount : ¬t.count = 0 := by
    have h1 := nonEmptyCount_pos t.entries p hplen (by
      rw [hpe, Entry.isEmptyBucket]
      show (k.isNil && v.isNil) = false
      rw [hk, Bool.false_and])
    have := hinv.ne_le
    omega
  rw [bucketAt] at hpe
  simp only [tableDelete, hfindE]
  rw [if_neg (by rw [hk]; exact Bool.false_ne_true), if_neg hcount, hpe]
  rw [if_neg (show ¬((⟨k, v⟩ : Entry).key.isNil = true) by
    show ¬(k.isNil = true)
    rw [hk]
    exact Bool.false_ne_true)]
  refine ⟨rfl, ?_, ?_, rfl⟩
  · intro q hq hact
    show valuesEqual (bucketAt (t.entries.set p ⟨.nil, .bool true⟩) q).key k = false
    by_cases hqp : q = p
    · subst hqp
      rw [activeAt] at hact
      have : bucketAt (t.entries.set q ⟨.nil, .bool true⟩) q = ⟨.nil, .bool true⟩ := by
        rw [bucketAt, getD_set_self t.entries q _ _ hplen]
      rw [this] at hact
      cases hact
    · have hbq : bucketAt (t.entries.set p ⟨.nil, .bool true⟩) q = bucketAt t.entries q := by
        rw [bucketAt, getD_set_ne t.entries p q _ _ (fun h => hqp h.symm), ← bucketAt]
      rw [activeAt, hbq] at hact
      rw [hbq]
      exact hMB.2.2.2.2 q hq hqp hact
  · refine ⟨by simp [List.length_set, hinv.len], ?_, hinv.load⟩
    show nonEmptyCount (t.entries.set p ⟨.nil, .bool true⟩) ≤ t.count
    rw [nonEmptyCount_set_eq_of t.entries p ⟨.nil, .bool true⟩ hplen
      (by rw [bucketAt, hpe, Entry.isEmptyBucket]
          show (k.isNil && v.isNil) = false
          rw [hk, Bool.false_and])
      (by rw [Entry.isEmptyBucket]
          show ((Value.nil).isNil && (Value.bool true).isNil) = false
          rfl)]
    exact hinv.ne_le
/-! sequences of table_set calls on other keys preserve a binding -/

theorem applySets_preserves (σ : Store) (k v : Value) (ops : List (Value × Value)) :
    ∀ t : Table, TableInv t → KeyBound σ t k v →
    (∀ op ∈ ops, valuesEqual op.1 k = false) →
    TableInv (applySets σ t ops) ∧ KeyBound σ (applySets σ t ops) k v := by
  induction ops with
  | nil =>
    intro t h1 h2 _
    exact ⟨h1, h2⟩
  | cons op rest ih =>
    intro t h1 h2 hops
    have hstep : applySets σ t (op :: rest) = applySets σ (tableSet σ t op.1 op.2).1 rest := rfl
    rw [hstep]
    exact ih (tableSet σ t op.1 op.2).1 (tableSet_TableInv σ t op.1 op.2 h1)
      (tableSet_frame σ t k v op.1 op.2 h1 h2 (hops op (List.mem_cons_self op rest)))
      (fun o ho => hops o (List.mem_cons_of_mem _ ho))

/-- C1 (amended): over a well-formed table, for a non-NIL key `k` that is
`values_equal` to itself (NaN number keys are not and break the law) and
either absent or bound, after `table_set(t, k, v)` and any further
`table_set` calls whose keys are not `values_equal` to `k`, `table_get(k)`
returns `v`; `table_delete(k)` then reports a deletion and leaves
`table_get(k)` reporting the key absent. -/
theorem c1_set_get_law (σ : Store) (t : Table) (k v : Value)
    (ops : List (Value × Value)) (hinv : TableInv t)
    (hk : k.isNil = false) (hrefl : valuesEqual k k = true)
    (hstate : KeyFree t k ∨ ∃ v0, KeyBound σ t k v0)
    (hops : ∀ op ∈ ops, valuesEqual op.1 k = false) :
    tableGet σ (applySets σ (tableSet σ t k v).1 ops) k = some v ∧
    (tableDelete σ (applySets σ (tableSet σ t k v).1 ops) k).2 = true ∧
    tableGet σ (tableDelete σ (applySets σ (tableSet σ t k v).1 ops) k).1 k = none := by
  have hKB : KeyBound σ (tableSet σ t k v).1 k v := by
    rcases hstate with hfree | ⟨v0, hb⟩
    · exact (tableSet_keyFree σ t k v hinv hk hrefl hfree).2
    · exact (tableSet_keyBound σ t k v v0 hinv hk hb).2
  have hI : TableInv (tableSet σ t k v).1 := tableSet_TableInv σ t k v hinv
  obtain ⟨hI2, hKB2⟩ := applySets_preserves σ k v ops (tableSet σ t k v).1 hI hKB hops
  obtain ⟨hd2, hdfree, hdinv, _⟩ :=
    tableDelete_keyBound σ (applySets σ (tableSet σ t k v).1 ops) k v hI2 hk hKB2
  exact ⟨tableGet_of_keyBound σ _ k v hI2 hk hKB2, hd2,
    tableGet_none_of_keyFree σ _ k hdinv hk hdfree⟩

/-- C1 witness: the law evaluated at a boolean key over the empty table
with one interleaved `table_set` on a different key. -/
theorem c1_set_get_law_witness :
    tableGet emptyStore
      (applySets emptyStore (tableSet emptyStore tableInit (Value.bool true) (Value.number 100)).1
        [(Value.number 3, Value.nil)]) (Value.bool true) = some (Value.number 100) ∧
    (tableDelete emptyStore
      (applySets emptyStore (tableSet emptyStore tableInit (Value.bool true) (Value.number 100)).1
        [(Value.number 3, Value.nil)]) (Value.bool true)).2 = true ∧
    tableGet emptyStore
      (tableDelete emptyStore
        (applySets emptyStore (tableSet emptyStore tableInit (Value.bool true) (Value.number 100)).1
          [(Value.number 3, Value.nil)]) (Value.bool true)).1 (Value.bool true) = none :=
  c1_set_get_law emptyStore tableInit (Value.bool true) (Value.number 100)
    [(Value.number 3, Value.nil)] ⟨rfl, Nat.le.refl, Nat.le.refl⟩ (by decide) (by decide)
    (Or.inl (fun q hq => (Nat.not_lt_zero q hq).elim))
    (by decide)

/-- C1 counterexample: a NaN number key (bit pattern 0x7FF8000000000000)
is inserted as new by `table_set` - which reports `is_new = true` - yet
`table_get` immediately reports it absent, because `values_equal` on
numbers is IEEE `==` and `NaN == NaN` is false.  The unamended claim
"after table_set(k, v) ... table_get(k) succeeds and returns v" fails. -/
theorem c1_counterexample :
    (tableSet emptyStore tableInit (Value.number 9221120237041090560) (Value.number 100)).2
      = true ∧
    tableGet emptyStore
      (tableSet emptyStore tableInit (Value.number 9221120237041090560) (Value.number 100)).1
      (Value.number 9221120237041090560) = none := by
  constructor
  · decide
  · decide
/-- C4: executing SET_GLOBAL raises the "Undefined variable" runtime error
exactly when the globals table holds no binding for the name, and in that
case the probing insert is deleted again, leaving the table without a
binding; when a binding exists SET_GLOBAL overwrites it and leaves the
assigned value on the stack; DEFINE_GLOBAL always inserts (redefinition
permitted) and pops the stack. -/
theorem c4_global_ops (σ : Store) (g : Table) (stack : List Value) (name : Value)
    (hinv : TableInv g) (hname : name.isNil = false)
    (hrefl : valuesEqual name name = true) :
    (KeyFree g name →
      ∃ g', execSetGlobal σ g stack name = .undefinedVariable g' ∧
        tableGet σ g' name = none ∧ TableInv g') ∧
    (∀ v0, KeyBound σ g name v0 →
      execSetGlobal σ g stack name =
        .ok (tableSet σ g name (stack.headD .nil)).1 stack ∧
      tableGet σ (tableSet σ g name (stack.headD .nil)).1 name =
        some (stack.headD .nil)) ∧
    ((KeyFree g name ∨ ∃ v0, KeyBound σ g name v0) →
      tableGet σ (execDefineGlobal σ g stack name).1 name =
        some (stack.headD .nil) ∧
      (execDefineGlobal σ g stack name).2 = stack.tail) := by
  refine ⟨?_, ?_, ?_⟩
  · intro hfree
    obtain ⟨hnew, hKB⟩ := tableSet_keyFree σ g name (stack.headD .nil) hinv hname hrefl hfree
    have hI : TableInv (tableSet σ g name (stack.headD .nil)).1 :=
      tableSet_TableInv σ g name (stack.headD .nil) hinv
    obtain ⟨_, hdfree, hdinv, _⟩ :=
      tableDelete_keyBound σ (tableSet σ g name (stack.headD .nil)).1 name
        (stack.headD .nil) hI hname hKB
    refine ⟨(tableDelete σ (tableSet σ g name (stack.headD .nil)).1 name).1, ?_, ?_, hdinv⟩
    · rw [execSetGlobal]
      rw [if_pos hnew]
    · exact tableGet_none_of_keyFree σ _ name hdinv hname hdfree
  · intro v0 hb
    obtain ⟨hold, hKB⟩ := tableSet_keyBound σ g name (stack.headD .nil) v0 hinv hname hb
    have hI : TableInv (tableSet σ g name (stack.headD .nil)).1 :=
      tableSet_TableInv σ g name (stack.headD .nil) hinv
    refine ⟨?_, tableGet_of_keyBound σ _ name _ hI hname hKB⟩
    rw [execSetGlobal]
    rw [hold]
    rfl
  · intro hstate
    have hKB : ∀ v : Value, KeyBound σ (tableSet σ g name v).1 name v := by
      intro v
      rcases hstate with hfree | ⟨v0, hb⟩
      · exact (tableSet_keyFree σ g name v hinv hname hrefl hfree).2
      · exact (tableSet_keyBound σ g name v v0 hinv hname hb).2
    match stack with
    | [] =>
      refine ⟨?_, rfl⟩
      exact tableGet_of_keyBound σ _ name _ (tableSet_TableInv σ g name _ hinv)
        hname (hKB Value.nil)
    | v :: rest =>
      refine ⟨?_, rfl⟩
      exact tableGet_of_keyBound σ _ name _ (tableSet_TableInv σ g name _ hinv)
        hname (hKB v)

/-- C4 witness: SET_GLOBAL on the empty globals table raises the error and
leaves the name unbound. -/
theorem c4_global_ops_witness :
    ∃ g', execSetGlobal emptyStore tableInit [Value.number 7] (Value.bool true) =
        .undefinedVariable g' ∧
      tableGet emptyStore g' (Value.bool true) = none ∧ TableInv g' :=
  (c4_global_ops emptyStore tableInit [Value.number 7] (Value.bool true)
    ⟨rfl, Nat.le.refl, Nat.le.refl⟩ (by decide) (by decide)).1
    (fun q hq => (Nat.not_lt_zero q hq).elim)
/-! string-content matching: helpers -/

theorem valuesEqual_object_iff (a b : Nat) :
    valuesEqual (.object a) (.object b) = true ↔ a = b := by
  rw [valuesEqual, objectsEqual]
  exact decide_eq_true_iff

theorem hashValue_object_string (σ : Store) (r h : Nat) (cs : List Nat)
    (hs : σ r = .string h cs) : hashValue σ (.object r) = h := by
  show hashObject σ r = h
  rw [hashObject, hs]

theorem stringContentMatch_object (σ : Store) (cs : List Nat) (r : Nat) (v : Value) :
    stringContentMatch σ cs ⟨.object r, v⟩ =
      (match σ r with
        | .string h cs0 => h == hashString cs && cs0.length == cs.length && cs0 == cs
        | _ => false) := rfl

theorem stringContentMatch_self (σ : Store) (r : Nat) (cs : List Nat) (v : Value)
    (hs : σ r = .string (hashString cs) cs) :
    stringContentMatch σ cs ⟨.object r, v⟩ = true := by
  rw [stringContentMatch_object, hs]
  simp

theorem stringContentMatch_content (σ : Store) (cs : List Nat) (e : Entry)
    (h : stringContentMatch σ cs e = true) :
    ∃ r, e.key = .object r ∧ σ r = .string (hashString cs) cs := by
  obtain ⟨ek, ev⟩ := e
  rcases ek with _ | b | n | r
  · cases h
  · cases h
  · cases h
  · refine ⟨r, rfl, ?_⟩
    rw [stringContentMatch_object] at h
    rcases hs : σ r with ⟨h0, cs0⟩ | ⟨f, a⟩ | ⟨nh, a, u⟩ | fr | _
    all_goals rw [hs] at h
    · simp only [Bool.and_eq_true, beq_iff_eq] at h
      rw [h.1.1, h.2]
    all_goals cases h

theorem stringContentMatch_ne (σ : Store) (b : List Nat) (r : Nat) (v : Value)
    (h0 : Nat) (cs0 : List Nat)
    (hs : σ r = .string h0 cs0) (hne : cs0 ≠ b) :
    stringContentMatch σ b ⟨.object r, v⟩ = false := by
  rw [stringContentMatch_object, hs]
  simp [hne]

theorem stringContentMatch_update (σ : Store) (rNew : Nat) (d : ObjectData)
    (cs : List Nat) (e : Entry)
    (h : ∀ r, e.key = .object r → r ≠ rNew) :
    stringContentMatch (storeUpdate σ rNew d) cs e = stringContentMatch σ cs e := by
  obtain ⟨ek, ev⟩ := e
  rcases ek with _ | b | n | r
  · rfl
  · rfl
  · rfl
  · rw [stringContentMatch_object, stringContentMatch_object]
    have hsu : storeUpdate σ rNew d r = σ r := by
      simp [storeUpdate, h r rfl]
    rw [hsu]

theorem MBound_congr (entries : List Entry) (cap : Nat) (M1 M2 : Entry → Bool)
    (hstart p : Nat)
    (h : ∀ q, q < cap → M1 (bucketAt entries q) = M2 (bucketAt entries q))
    (hb : MBound entries cap M1 hstart p) : MBound entries cap M2 hstart p := by
  obtain ⟨h1, h2, h3, h4, h5⟩ := hb
  exact ⟨h1, h2, by rw [← h p h1]; exact h3, h4,
    fun q hq hqp ha => by rw [← h q hq]; exact h5 q hq hqp ha⟩
/-! completeness of the interning lookup, and distinctness of interned keys -/

theorem tableGetByString_of_MBound (σ : Store) (t : Table) (cs : List Nat)
    (q r : Nat) (hinv : TableInv t)
    (hb : MBound t.entries t.capacity (stringContentMatch σ cs) (hashString cs) q)
    (hkey : (bucketAt t.entries q).key = .object r) :
    tableGetByString σ t cs = some (r, (bucketAt t.entries q).value) := by
  have hcap : 0 < t.capacity := by
    have := hb.1
    omega
  have hfind : findEntryByString σ t cs = some q :=
    findAux_of_MBound t.entries t.capacity (stringContentMatch σ cs) (hashString cs) q
      hcap hb
  have hcount : ¬t.count = 0 := by
    have h1 := nonEmptyCount_pos t.entries q (by rw [hinv.len]; exact hb.1) (by
      rw [Entry.isEmptyBucket]
      have := hb.2.1
      rw [this, Bool.false_and])
    have := hinv.ne_le
    omega
  rw [tableGetByString, if_neg hcount, hfind]
  show (if (t.entries.getD q Entry.empty).key.isNil then none
    else match (t.entries.getD q Entry.empty).key with
      | .object r => some (r, (t.entries.getD q Entry.empty).value)
      | _ => none) = some (r, (bucketAt t.entries q).value)
  rw [bucketAt] at hkey
  rw [hkey, bucketAt]
  rfl

theorem stringContentMatch_self_key (σ : Store) (cs : List Nat) (e : Entry) (r : Nat)
    (hk : e.key = .object r) (hs : σ r = .string (hashString cs) cs) :
    stringContentMatch σ cs e = true := by
  obtain ⟨ek, ev⟩ := e
  rw [show (⟨ek, ev⟩ : Entry).key = ek from rfl] at hk
  subst hk
  exact stringContentMatch_self σ r cs ev hs

theorem stringContentMatch_ne_key (σ : Store) (b : List Nat) (e : Entry) (r : Nat)
    (h0 : Nat) (cs0 : List Nat)
    (hk : e.key = .object r) (hs : σ r = .string h0 cs0) (hne : cs0 ≠ b) :
    stringContentMatch σ b e = false := by
  obtain ⟨ek, ev⟩ := e
  rw [show (⟨ek, ev⟩ : Entry).key = ek from rfl] at hk
  subst hk
  exact stringContentMatch_ne σ b r ev h0 cs0 hs hne

theorem internKeys_distinct (root : Root) (hinv : InternInv root) :
    ∀ q q', q < root.strings.capacity → q' < root.strings.capacity → q' ≠ q →
    activeAt root.strings.entries q → activeAt root.strings.entries q' →
    valuesEqual (bucketAt root.strings.entries q').key
      (bucketAt root.strings.entries q).key = false := by
  intro q q' hq hq' hne hact hact'
  obtain ⟨r, cs, hkey, hrlt, hstore, hMB⟩ := hinv.2 q hq hact
  obtain ⟨r', cs', hkey', hrlt', hstore', hMB'⟩ := hinv.2 q' hq' hact'
  by_contra hc
  rw [Bool.not_eq_false] at hc
  rw [hkey, hkey'] at hc
  have hrr : r' = r := (valuesEqual_object_iff r' r).mp hc
  have hmatch : stringContentMatch root.store cs (bucketAt root.strings.entries q') = true :=
    stringContentMatch_self_key root.store cs _ r (by rw [hkey', hrr]) hstore
  have := hMB.2.2.2.2 q' hq' hne hact'
  rw [hmatch] at this
  cases this
/-! generic MBound transport through grow and write-back -/

theorem growIfNeeded_MBound (σ : Store) (t : Table) (M : Entry → Bool) (p0 : Nat)
    (hinv : TableInv t)
    (hb : MBound t.entries t.capacity M (hashValue σ (bucketAt t.entries p0).key) p0)
    (hNoEq : ∀ q, q < t.capacity → q ≠ p0 → activeAt t.entries q →
      valuesEqual (bucketAt t.entries q).key (bucketAt t.entries p0).key = false) :
    ∃ p', MBound (growIfNeeded σ t).entries (growIfNeeded σ t).capacity M
        (hashValue σ (bucketAt t.entries p0).key) p' ∧
      bucketAt (growIfNeeded σ t).entries p' = bucketAt t.entries p0 := by
  rw [growIfNeeded]
  split_ifs with hg
  · obtain ⟨hb1, hb2, _⟩ := grow_arith t hinv hg
    obtain ⟨p', hMB', hpe', _⟩ := adjustCapacity_bound σ t (GROW_CAPACITY t.capacity)
      M p0 hinv.len hb2 hb1 hb.1 hb.2.1 hb.2.2.1 hb.2.2.2.2 hNoEq
    refine ⟨p', ?_, hpe'⟩
    have hcapeq : (adjustCapacity σ t (GROW_CAPACITY t.capacity)).capacity
        = GROW_CAPACITY t.capacity := rfl
    rw [hcapeq]
    exact hMB'
  · exact ⟨p0, hb, rfl⟩

theorem writeBack_MBound_frame (σ : Store) (t1 : Table) (M : Entry → Bool)
    (hstart p : Nat) (k' v' : Value)
    (hlen : t1.entries.length = t1.capacity)
    (hk' : k'.isNil = false)
    (hb : MBound t1.entries t1.capacity M hstart p)
    (hneq : valuesEqual (bucketAt t1.entries p).key k' = false)
    (hM' : M ⟨k', v'⟩ = false) :
    MBound (writeBack σ t1 k' v').1.entries t1.capacity M hstart p ∧
    bucketAt (writeBack σ t1 k' v').1.entries p = bucketAt t1.entries p := by
  rcases hE : findEntry σ t1 k' with _ | i
  · simp only [writeBack, hE]
    exact ⟨hb, trivial⟩
  · obtain ⟨hilt, hcases⟩ := findEntry_characterize σ t1 k' i hE
    have hip : i ≠ p := by
      intro hcontra
      subst hcontra
      rcases hcases with hn | ⟨hact, hm⟩
      · rw [hb.2.1] at hn
        cases hn
      · rw [hneq] at hm
        cases hm
    obtain ⟨hMB', hpe'⟩ := set_preserves_MBound t1.entries t1.capacity M hstart p i
      ⟨k', v'⟩ hlen hilt hb hip hk' hM'
    simp only [writeBack, hE]
    exact ⟨hMB', hpe'⟩

theorem set_at_probe_creates_MBound_any (σ : Store) (entries : List Entry) (cap : Nat)
    (k v : Value) (M : Entry → Bool) (p : Nat)
    (hlen : entries.length = cap) (hcap : 0 < cap)
    (hfind : findAux entries cap (fun e => valuesEqual e.key k)
      (hashValue σ k % cap) cap none = some p)
    (hk : k.isNil = false) (hM : M ⟨k, v⟩ = true)
    (hfreeM : ∀ q, q < cap → activeAt entries q → M (bucketAt entries q) = false) :
    p < cap ∧ MBound (entries.set p ⟨k, v⟩) cap M (hashValue σ k) p := by
  have hs : hashValue σ k % cap < cap := Nat.mod_lt _ hcap
  have hspec := findAux_spec entries cap (fun e => valuesEqual e.key k)
    cap (hashValue σ k % cap) none p hs hfind
  rcases hspec with ⟨j, hj, hpj, hpre, hat⟩ | ⟨t0, ht0, _⟩
  · have hplt : p < cap := by rw [hpj]; exact Nat.mod_lt _ hcap
    have hbp : bucketAt (entries.set p ⟨k, v⟩) p = ⟨k, v⟩ := by
      rw [bucketAt, getD_set_self entries p _ _ (by omega)]
    refine ⟨hplt, hplt, by rw [hbp]; exact hk, by rw [hbp]; exact hM,
      ⟨j, by omega, ?_, ?_⟩, ?_⟩
    · rw [probeAt]
      exact hpj
    · intro i hi
      have hip : probeAt (hashValue σ k) cap i ≠ p := by
        intro hcontra
        have hji : i = j := by
          apply probeAt_inj (hashValue σ k) cap (by omega) (by omega)
          rw [hcontra, probeAt, ← hpj]
        omega
      have hbq : bucketAt (entries.set p ⟨k, v⟩) (probeAt (hashValue σ k) cap i) =
          bucketAt entries (probeAt (hashValue σ k) cap i) := by
        rw [bucketAt, getD_set_ne entries p _ _ _ (fun h => hip h.symm), ← bucketAt]
      rw [hbq, probeAt]
      exact (hpre i hi).1
    · intro q hq hqp hact
      have hbq : bucketAt (entries.set p ⟨k, v⟩) q = bucketAt entries q := by
        rw [bucketAt, getD_set_ne entries p q _ _ (fun h => hqp h.symm), ← bucketAt]
      rw [hbq]
      rw [activeAt, hbq] at hact
      exact hfreeM q hq hact
  · cases ht0
/-! every live bucket after growth carries a key already present before -/

theorem growIfNeeded_active (σ : Store) (t : Table) (hinv : TableInv t) :
    ∀ q, q < (growIfNeeded σ t).capacity → activeAt (growIfNeeded σ t).entries q →
    ∃ q0, q0 < t.capacity ∧ activeAt t.entries q0 ∧
      (bucketAt (growIfNeeded σ t).entries q).key = (bucketAt t.entries q0).key := by
  rw [growIfNeeded]
  split_ifs with hg
  · intro q hq hact
    obtain ⟨hb1, hb2, _⟩ := grow_arith t hinv hg
    obtain ⟨hc, _, _, _, hfr⟩ := adjustCapacity_free σ t (GROW_CAPACITY t.capacity)
      (fun e => !(t.entries.any (fun e0 => !e0.key.isNil && e0.key == e.key)))
      hb2 hb1 (by
        intro e he hk
        rw [Bool.not_eq_false']
        rw [List.any_eq_true]
        exact ⟨e, he, by rw [hk]; simp⟩)
    have := hfr q (by rw [← hc]; exact hq) hact
    rw [Bool.not_eq_false'] at this
    simp only [List.any_eq_true, Bool.and_eq_true, Bool.not_eq_true', beq_iff_eq] at this
    obtain ⟨e0, he0, hk0, hkeq⟩ := this
    obtain ⟨i, hi, hie⟩ := List.mem_iff_getElem.mp he0
    refine ⟨i, by rw [← hinv.len]; exact hi, ?_, ?_⟩
    · rw [activeAt, bucketAt_eq_getElem _ _ hi, hie]
      exact hk0
    · rw [bucketAt_eq_getElem _ _ hi, hie, hkeq]
  · intro q hq hact
    exact ⟨q, hq, hact, rfl⟩
/-! lookups: inversion and the content absent on a miss -/

theorem isNil_eq_nil (v : Value) (h : v.isNil = true) : v = .nil := by
  cases v
  · rfl
  all_goals cases h

theorem findEntryByString_characterize (σ : Store) (t : Table) (b : List Nat) (i : Nat)
    (hfind : findEntryByString σ t b = some i) :
    i < t.capacity ∧ ((bucketAt t.entries i).key.isNil = true ∨
      ((bucketAt t.entries i).key.isNil = false ∧
        stringContentMatch σ b (bucketAt t.entries i) = true)) := by
  rcases Nat.eq_zero_or_pos t.capacity with hcap | hcap
  · rw [findEntryByString, hcap] at hfind
    cases hfind
  · have hs : hashString b % t.capacity < t.capacity := Nat.mod_lt _ hcap
    have hspec := findAux_spec t.entries t.capacity (stringContentMatch σ b)
      t.capacity (hashString b % t.capacity) none i hs hfind
    rcases hspec with ⟨j, hj, hpj, hpre, hat⟩ | ⟨t0, ht0, _⟩
    · exact ⟨by rw [hpj]; exact Nat.mod_lt _ hcap, hat⟩
    · cases ht0

theorem tableGetByString_inv (σ : Store) (t : Table) (b : List Nat) (r0 : Nat) (v : Value)
    (h : tableGetByString σ t b = some (r0, v)) :
    ∃ i, i < t.capacity ∧ (bucketAt t.entries i).key = .object r0 ∧
      stringContentMatch σ b (bucketAt t.entries i) = true ∧
      (bucketAt t.entries i).value = v := by
  rw [tableGetByString] at h
  by_cases hc0 : t.count = 0
  · rw [if_pos hc0] at h
    cases h
  · rw [if_neg hc0] at h
    rcases hE : findEntryByString σ t b with _ | i
    · rw [hE] at h
      dsimp only at h
      cases h
    · rw [hE] at h
      dsimp only at h
      obtain ⟨hilt, hcases⟩ := findEntryByString_characterize σ t b i hE
      by_cases hnil : (t.entries.getD i Entry.empty).key.isNil = true
      · rw [if_pos hnil] at h
        cases h
      · rw [if_neg hnil] at h
        rcases hcases with hn | ⟨hact, hm⟩
        · rw [bucketAt] at hn
          exact absurd hn hnil
        · obtain ⟨r, hkey, hstore⟩ := stringContentMatch_content σ b _ hm
          rw [bucketAt] at hkey
          rw [hkey] at h
          dsimp only at h
          rw [Option.some.injEq, Prod.mk.injEq] at h
          refine ⟨i, hilt, by rw [bucketAt, hkey, h.1], hm, ?_⟩
          rw [bucketAt]
          exact h.2

theorem miss_no_content (root : Root) (b : List Nat) (hinv : InternInv root)
    (hmiss : tableGetByString root.store root.strings b = none) :
    ∀ q, q < root.strings.capacity → activeAt root.strings.entries q →
      ∃ r cs, (bucketAt root.strings.entries q).key = .object r ∧
        r < root.nextRef ∧
        root.store r = .string (hashString cs) cs ∧ cs ≠ b ∧
        MBound root.strings.entries root.strings.capacity
          (stringContentMatch root.store cs) (hashString cs) q := by
  intro q hq hact
  obtain ⟨r, cs, hkey, hrlt, hstore, hMB⟩ := hinv.2 q hq hact
  refine ⟨r, cs, hkey, hrlt, hstore, ?_, hMB⟩
  intro hcsb
  subst hcsb
  rw [tableGetByString_of_MBound root.store root.strings cs q r hinv.1 hMB hkey] at hmiss
  cases hmiss

theorem intern_keyFree_fresh (root : Root) (hinv : InternInv root) (ref : Nat)
    (href : root.nextRef ≤ ref) : KeyFree root.strings (.object ref) := by
  intro q hq hact
  obtain ⟨r, cs, hkey, hrlt, _, _⟩ := hinv.2 q hq hact
  rw [hkey]
  show objectsEqual r ref = false
  rw [objectsEqual, decide_eq_false]
  omega
/-! one create_string_object call: the intern invariant is preserved,
old interned strings survive untouched, and the new content is interned -/

theorem createString_step (root : Root) (b : List Nat) (hinv : InternInv root) :
    InternInv (createStringObject root b).1 ∧
    root.nextRef ≤ (createStringObject root b).1.nextRef ∧
    (∀ r, r < root.nextRef → (createStringObject root b).1.store r = root.store r) ∧
    (∀ a ra, ra < root.nextRef → HasIntern root a ra →
      HasIntern (createStringObject root b).1 a ra) ∧
    HasIntern (createStringObject root b).1 b (createStringObject root b).2 ∧
    (createStringObject root b).2 < (createStringObject root b).1.nextRef := by
  rcases hL : tableGetByString root.store root.strings b with _ | ⟨r0, v0⟩
  case some =>
    have hres : createStringObject root b = (root, r0) := by
      rw [createStringObject, hL]
    rw [hres]
    obtain ⟨i, hilt, hkey, hm, hval⟩ := tableGetByString_inv _ _ _ _ _ hL
    obtain ⟨r1, hkey1, hstore1⟩ := stringContentMatch_content _ _ _ hm
    rw [hkey] at hkey1
    cases hkey1
    have hact : activeAt root.strings.entries i := by
      rw [activeAt, hkey]
      rfl
    obtain ⟨r2, cs2, hkey2, hr2lt, _, _⟩ := hinv.2 i hilt hact
    rw [hkey] at hkey2
    cases hkey2
    exact ⟨hinv, le_refl _, fun r _ => rfl, fun a ra _ h => h,
      ⟨i, hilt, hkey, hstore1⟩, hr2lt⟩
  case none =>
    have hres : createStringObject root b =
        ({ store := storeUpdate root.store root.nextRef (.string (hashString b) b),
           nextRef := root.nextRef + 1,
           strings := (tableSet
             (storeUpdate root.store root.nextRef (.string (hashString b) b))
             root.strings (.object root.nextRef) .nil).1 }, root.nextRef) := by
      rw [createStringObject, hL]
    rw [hres]
    set σ2 := storeUpdate root.store root.nextRef (.string (hashString b) b) with hσ2
    have hσref : σ2 root.nextRef = .string (hashString b) b := by
      show (if root.nextRef = root.nextRef then ObjectData.string (hashString b) b
        else root.store root.nextRef) = _
      rw [if_pos rfl]
    have hσold : ∀ r, r < root.nextRef → σ2 r = root.store r := by
      intro r hr
      show (if r = root.nextRef then ObjectData.string (hashString b) b else root.store r)
        = root.store r
      rw [if_neg (by omega)]
    have hinvT : TableInv root.strings := hinv.1
    have hmupd : ∀ cs q, q < root.strings.capacity →
        stringContentMatch σ2 cs (bucketAt root.strings.entries q) =
        stringContentMatch root.store cs (bucketAt root.strings.entries q) := by
      intro cs q hq
      apply stringContentMatch_update
      intro r hkey
      by_cases hact : activeAt root.strings.entries q
      · obtain ⟨r1, cs1, hkey1, hrlt, _, _⟩ := hinv.2 q hq hact
        rw [hkey1] at hkey
        cases hkey
        omega
      · rw [activeAt, Bool.not_eq_false] at hact
        rw [isNil_eq_nil _ hact] at hkey
        cases hkey
    have hmisscontent := miss_no_content root b hinv hL
    obtain ⟨hl1, hc1, hload1, hcap1, hne1⟩ := growIfNeeded_inv σ2 root.strings hinvT
    have hfree1 : KeyFree (growIfNeeded σ2 root.strings) (.object root.nextRef) :=
      growIfNeeded_keyFree σ2 _ _ hinvT (intern_keyFree_fresh root hinv _ (le_refl _))
    obtain ⟨p, hfind0⟩ := findAux_some_of_room (growIfNeeded σ2 root.strings).entries
      (growIfNeeded σ2 root.strings).capacity
      (fun e => valuesEqual e.key (.object root.nextRef)) hcap1 hl1 hne1
      (hashValue σ2 (.object root.nextRef) % (growIfNeeded σ2 root.strings).capacity)
      none (Nat.mod_lt _ hcap1)
    have hfind : findEntry σ2 (growIfNeeded σ2 root.strings) (.object root.nextRef) = some p :=
      hfind0
    obtain ⟨hplt, hpcases⟩ := findEntry_characterize σ2 _ _ p hfind
    have hpnil : (bucketAt (growIfNeeded σ2 root.strings).entries p).key.isNil = true := by
      rcases hpcases with h | ⟨hact, hmatch⟩
      · exact h
      · rw [hfree1 p hplt hact] at hmatch
        cases hmatch
    have hS2ent : (tableSet σ2 root.strings (.object root.nextRef) Value.nil).1.entries =
        (growIfNeeded σ2 root.strings).entries.set p ⟨.object root.nextRef, .nil⟩ := by
      rw [tableSet_eq, if_neg (fun h => Bool.noConfusion h)]
      simp only [writeBack, hfind]
    have hS2cap : (tableSet σ2 root.strings (.object root.nextRef) Value.nil).1.capacity =
        (growIfNeeded σ2 root.strings).capacity := by
      rw [tableSet_eq, if_neg (fun h => Bool.noConfusion h)]
      simp only [writeBack, hfind]
    have hS2inv : TableInv (tableSet σ2 root.strings (.object root.nextRef) Value.nil).1 :=
      tableSet_TableInv σ2 root.strings _ _ hinvT
    have hbnew : bucketAt ((growIfNeeded σ2 root.strings).entries.set p
        ⟨.object root.nextRef, .nil⟩) p = ⟨.object root.nextRef, .nil⟩ := by
      rw [bucketAt, getD_set_self _ _ _ _ (by rw [hl1]; exact hplt)]
    have hhv : hashValue σ2 (.object root.nextRef) = hashString b :=
      hashValue_object_string σ2 _ _ _ hσref
    have ht1nomatch : ∀ q, q < (growIfNeeded σ2 root.strings).capacity →
        activeAt (growIfNeeded σ2 root.strings).entries q →
        stringContentMatch σ2 b (bucketAt (growIfNeeded σ2 root.strings).entries q)
          = false := by
      intro q hq hact
      obtain ⟨q0, hq0lt, hq0act, hkeq⟩ := growIfNeeded_active σ2 root.strings hinvT q hq hact
      obtain ⟨r, cs, hkey0, hrlt, hstore0, hcsb, _⟩ := hmisscontent q0 hq0lt hq0act
      exact stringContentMatch_ne_key σ2 b _ r _ cs (by rw [hkeq, hkey0])
        (by rw [hσold r hrlt]; exact hstore0) hcsb
    obtain ⟨hplt2, hMBnew⟩ := set_at_probe_creates_MBound_any σ2
      (growIfNeeded σ2 root.strings).entries (growIfNeeded σ2 root.strings).capacity
      (.object root.nextRef) .nil (stringContentMatch σ2 b) p hl1 hcap1 hfind0 rfl
      (stringContentMatch_self σ2 _ b .nil hσref) ht1nomatch
    rw [hhv] at hMBnew
    have htrans : ∀ q0, q0 < root.strings.capacity → activeAt root.strings.entries q0 →
        ∃ r cs p', (bucketAt root.strings.entries q0).key = .object r ∧
          r < root.nextRef ∧ root.store r = .string (hashString cs) cs ∧ cs ≠ b ∧
          p' < (growIfNeeded σ2 root.strings).capacity ∧
          bucketAt ((growIfNeeded σ2 root.strings).entries.set p
            ⟨.object root.nextRef, .nil⟩) p' = bucketAt root.strings.entries q0 ∧
          MBound ((growIfNeeded σ2 root.strings).entries.set p
              ⟨.object root.nextRef, .nil⟩)
            (growIfNeeded σ2 root.strings).capacity
            (stringContentMatch σ2 cs) (hashString cs) p' := by
      intro q0 hq0 hact0
      obtain ⟨r, cs, hkey0, hrlt, hstore0, hcsb, hMB0⟩ := hmisscontent q0 hq0 hact0
      have hMB0x : MBound root.strings.entries root.strings.capacity
          (stringContentMatch σ2 cs)
          (hashValue σ2 (bucketAt root.strings.entries q0).key) q0 := by
        have h1 : MBound root.strings.entries root.strings.capacity
            (stringContentMatch σ2 cs) (hashString cs) q0 :=
          MBound_congr _ _ _ _ _ _ (fun q hq => (hmupd cs q hq).symm) hMB0
        have h2 : hashValue σ2 (bucketAt root.strings.entries q0).key = hashString cs := by
          rw [hkey0]
          exact hashValue_object_string σ2 _ _ _ (by rw [hσold r hrlt]; exact hstore0)
        rw [h2]
        exact h1
      obtain ⟨p', hMB1, hpe1⟩ := growIfNeeded_MBound σ2 root.strings
        (stringContentMatch σ2 cs) q0 hinvT hMB0x
        (fun q hq hqp hac => internKeys_distinct root hinv q0 q hq0 hq hqp hact0 hac)
      have hhv1 : hashValue σ2 (bucketAt root.strings.entries q0).key = hashString cs := by
        rw [hkey0]
        exact hashValue_object_string σ2 _ _ _ (by rw [hσold r hrlt]; exact hstore0)
      rw [hhv1] at hMB1
      have hpne : p ≠ p' := by
        intro hcontra
        have hx := hMB1.2.1
        rw [← hcontra, hpnil] at hx
        cases hx
      have hnewM : stringContentMatch σ2 cs ⟨.object root.nextRef, .nil⟩ = false :=
        stringContentMatch_ne_key σ2 cs _ root.nextRef _ b rfl hσref
          (fun h => hcsb h.symm)
      obtain ⟨hMB2, hpe2⟩ := set_preserves_MBound (growIfNeeded σ2 root.strings).entries
        (growIfNeeded σ2 root.strings).capacity (stringContentMatch σ2 cs)
        (hashString cs) p' p ⟨.object root.nextRef, .nil⟩ hl1 hplt hMB1 hpne rfl hnewM
      exact ⟨r, cs, p', hkey0, hrlt, hstore0, hcsb, hMB1.1, by rw [hpe2, hpe1], hMB2⟩
    refine ⟨⟨hS2inv, ?_⟩, by show root.nextRef ≤ root.nextRef + 1; omega, hσold, ?_, ?_, ?_⟩
    · -- every live bucket of the new intern table is a valid interned string
      intro q2 hq2 hact2
      rw [hS2cap] at hq2
      rw [hS2ent] at hact2 ⊢
      by_cases hq2p : q2 = p
      · subst hq2p
        refine ⟨root.nextRef, b, by rw [hbnew], by show root.nextRef < root.nextRef + 1; omega, hσref, ?_⟩
        rw [hS2cap]
        exact hMBnew
      · have hbq2 : bucketAt ((growIfNeeded σ2 root.strings).entries.set p
            ⟨.object root.nextRef, .nil⟩) q2 =
            bucketAt (growIfNeeded σ2 root.strings).entries q2 := by
          rw [bucketAt, getD_set_ne _ _ _ _ _ (fun h => hq2p h.symm), ← bucketAt]
        rw [activeAt, hbq2] at hact2
        obtain ⟨q0, hq0lt, hq0act, hkeq⟩ :=
          growIfNeeded_active σ2 root.strings hinvT q2 hq2 hact2
        obtain ⟨r, cs, p', hkey0, hrlt, hstore0, hcsb, hp'lt, hpe', hMB'⟩ :=
          htrans q0 hq0lt hq0act
        have hq2p' : q2 = p' := by
          by_contra hne
          have hx := hMB'.2.2.2.2 q2 hq2 hne (by rw [activeAt, hbq2]; exact hact2)
          rw [hbq2] at hx
          rw [stringContentMatch_self_key σ2 cs _ r (by rw [hkeq, hkey0])
            (by rw [hσold r hrlt]; exact hstore0)] at hx
          cases hx
        subst hq2p'
        refine ⟨r, cs, ?_, by show r < root.nextRef + 1; omega, by show σ2 r = _; rw [hσold r hrlt]; exact hstore0, ?_⟩
        · rw [hpe', hkey0]
        · rw [hS2cap]
          exact hMB'
    · -- previously interned strings stay interned at the same reference
      intro a ra hra ⟨q0, hq0, hkeya, hstorea⟩
      have hacta : activeAt root.strings.entries q0 := by
        rw [activeAt, hkeya]
        rfl
      obtain ⟨r, cs, p', hkey0, hrlt, hstore0, hcsb, hp'lt, hpe', hMB'⟩ :=
        htrans q0 hq0 hacta
      refine ⟨p', by rw [hS2cap]; exact hp'lt, ?_, ?_⟩
      · rw [hS2ent, hpe', hkeya]
      · show σ2 ra = _
        rw [hσold ra hra]
        exact hstorea
    · -- the new content is interned at the fresh reference
      refine ⟨p, by rw [hS2cap]; exact hplt, ?_, hσref⟩
      rw [hS2ent, hbnew]
    · show root.nextRef < root.nextRef + 1
      omega
/-! sequential creates, cache hits and the interning law -/

theorem applyCreates_preserves (cs : List (List Nat)) :
    ∀ root, InternInv root →
    InternInv (applyCreates root cs) ∧
    root.nextRef ≤ (applyCreates root cs).nextRef ∧
    (∀ r, r < root.nextRef → (applyCreates root cs).store r = root.store r) ∧
    (∀ a ra, ra < root.nextRef → HasIntern root a ra →
      HasIntern (applyCreates root cs) a ra) := by
  induction cs with
  | nil =>
    intro root h
    exact ⟨h, le_refl _, fun _ _ => rfl, fun _ _ _ h => h⟩
  | cons c rest ih =>
    intro root h
    obtain ⟨hI1, hle1, hst1, hH1, _, _⟩ := createString_step root c h
    obtain ⟨hI2, hle2, hst2, hH2⟩ := ih (createStringObject root c).1 hI1
    have hshape : applyCreates root (c :: rest) =
        applyCreates (createStringObject root c).1 rest := rfl
    rw [hshape]
    refine ⟨hI2, le_trans hle1 hle2, ?_, ?_⟩
    · intro r hr
      rw [hst2 r (lt_of_lt_of_le hr hle1), hst1 r hr]
    · intro a ra hra hH
      exact hH2 a ra (lt_of_lt_of_le hra hle1) (hH1 a ra hra hH)

theorem createString_hit (root : Root) (a : List Nat) (ra : Nat) (hinv : InternInv root)
    (h : HasIntern root a ra) : createStringObject root a = (root, ra) := by
  obtain ⟨q, hq, hkey, hstore⟩ := h
  have hact : activeAt root.strings.entries q := by
    rw [activeAt, hkey]
    rfl
  obtain ⟨r1, cs1, hkey1, hrlt, hstore1, hMB1⟩ := hinv.2 q hq hact
  rw [hkey] at hkey1
  cases hkey1
  have hcs : cs1 = a := by
    rw [hstore] at hstore1
    exact (((ObjectData.string.injEq _ _ _ _).mp hstore1).2).symm
  subst hcs
  rw [createStringObject,
    tableGetByString_of_MBound root.store root.strings cs1 q ra hinv.1 hMB1 hkey]

/-- C2: from any root whose intern table satisfies the interning
invariant, `create_string_object` returns the identical reference for the
same byte content no matter how many strings are created in between, and
reference equality of created strings coincides with byte equality of
their contents. -/
theorem c2_interning_law (root : Root) (a bb : List Nat) (cs : List (List Nat))
    (hinv : InternInv root) :
    (createStringObject (applyCreates (createStringObject root a).1 cs) a).2
      = (createStringObject root a).2 ∧
    ((createStringObject (createStringObject root a).1 bb).2
        = (createStringObject root a).2 ↔ bb = a) := by
  obtain ⟨hI1, hle1, hst1, hH1, hHa, hralt⟩ := createString_step root a hinv
  constructor
  · obtain ⟨hI2, hle2, hst2, hH2⟩ :=
      applyCreates_preserves cs (createStringObject root a).1 hI1
    have hH : HasIntern (applyCreates (createStringObject root a).1 cs) a
        (createStringObject root a).2 :=
      hH2 a (createStringObject root a).2 hralt hHa
    rw [createString_hit _ a (createStringObject root a).2 hI2 hH]
  · obtain ⟨hI1b, hle1b, hst1b, hH1b, hHb, hrbllt⟩ :=
      createString_step (createStringObject root a).1 bb hI1
    constructor
    · intro heq
      obtain ⟨qb, hqb, hkeyb, hstoreb⟩ := hHb
      obtain ⟨qa, hqa, hkeya, hstorea⟩ :=
        hH1b a (createStringObject root a).2 hralt hHa
      rw [heq] at hstoreb
      rw [hstoreb] at hstorea
      exact ((ObjectData.string.injEq _ _ _ _).mp hstorea).2
    · intro heq
      subst heq
      rw [createString_hit (createStringObject root bb).1 bb
        (createStringObject root bb).2 hI1 hHa]
/-- C2 witness: the interning law evaluated on the byte strings "hi" and
"w" from an empty root. -/
theorem c2_interning_law_witness :
    (createStringObject (applyCreates
        (createStringObject ⟨emptyStore, 0, tableInit⟩ [104, 105]).1
        [[119], [104, 105]]) [104, 105]).2
      = (createStringObject ⟨emptyStore, 0, tableInit⟩ [104, 105]).2 ∧
    ((createStringObject
        (createStringObject ⟨emptyStore, 0, tableInit⟩ [104, 105]).1 [119]).2
        = (createStringObject ⟨emptyStore, 0, tableInit⟩ [104, 105]).2 ↔
      [119] = [104, 105]) :=
  c2_interning_law ⟨emptyStore, 0, tableInit⟩ [104, 105] [119] [[119], [104, 105]]
    ⟨⟨rfl, Nat.le.refl, Nat.le.refl⟩, fun q hq => (Nat.not_lt_zero q hq).elim⟩

end Clox
